import Mathlib

/-!
# Graham scan (`gpu_graham_scan.h`): embedding and verified properties

Coordinates are integers.  The program instantiates `Num_Type = int`: `Run` is
embedded with the 32-bit `operator-` and `Turn` (`Point.sub32`, `Turn32`,
arithmetic modulo `2^32`); the same scan over exact arithmetic (`RunExact`) is
the reference it is compared with on inputs without overflow.  The `std::stack`
is a `List Point` whose head is the top of the stack.  `Run` has no guard:
`s.top()` / `s.pop()` on an empty stack and `points_[i]` beyond the end are
undefined behaviour in C++; the embedding stops there with
`Except.error` of the place (`UndefinedBehaviour`), which stands for "the
behaviour is undefined from here on", not for a failure that the code reports.
-/

namespace gpu_graham_scan

/-! ## Data model -/

/-- Cartesian coordinate point: `struct Point { Num_Type x; Num_Type y; int id; }`
with `Num_Type = int`. -/
structure Point where
  x : Int
  y : Int
  id : Int
deriving DecidableEq, Repr

/-- The enumeration `enum TurnDir { RIGHT, NONE, LEFT }`. -/
inductive TurnDir where
  | RIGHT
  | NONE
  | LEFT
deriving DecidableEq, Repr

/-- The two places at which an execution of `Run` leaves defined behaviour.
* `readOutOfRange`: `points_[i]` is read beyond the end of the vector;
* `topOfEmptyStack`: `s.top()` or `s.pop()` is called on the empty stack.
The source has no guard, no `throw` and no error return at either place: what
the program does from there on is not defined, and nothing is reported to the
caller. -/
inductive UndefinedBehaviour where
  | readOutOfRange
  | topOfEmptyStack
deriving DecidableEq, Repr

/-- Subtraction `operator-`: `tmp.x` and `tmp.y` are assigned, `tmp.id` never is.
The value found in the unassigned field is the parameter `uninit`. -/
def Point.sub (uninit : Int) (p1 p2 : Point) : Point :=
  { x := p1.x - p2.x, y := p1.y - p2.y, id := uninit }

/-- Addition `operator+`: as for `operator-`, `tmp.id` is never assigned. -/
def Point.add (uninit : Int) (p1 p2 : Point) : Point :=
  { x := p1.x + p2.x, y := p1.y + p2.y, id := uninit }

/-! ## Conversion of an integer to `float` -/

/-- Rounding of a natural number to a 24-bit significand (binary32), to nearest,
ties to even.  The result is the natural number the float denotes. -/
def roundSignificand (n : Nat) : Nat :=
  if n < 2 ^ 24 then n
  else
    let e := Nat.log2 n - 23
    let q := n / 2 ^ e
    let r := n % 2 ^ e
    let half := 2 ^ (e - 1)
    if r < half then q * 2 ^ e
    else if half < r then (q + 1) * 2 ^ e
    else if q % 2 = 0 then q * 2 ^ e
    else (q + 1) * 2 ^ e

/-- Implicit conversion of the integer expression returned by `XProduct` to its
return type `float`; the float is represented by the integer it denotes. -/
def toFloat (z : Int) : Int :=
  if z < 0 then -((roundSignificand z.natAbs : Nat) : Int)
  else ((roundSignificand z.natAbs : Nat) : Int)

/-! ## Orientation -/

/-- Source `XProduct`: `return ((p2.x) * (p1.y)) - ((p1.x) * (p2.y));` as a `float`. -/
def XProduct (p1 p2 : Point) : Int :=
  toFloat (p2.x * p1.y - p1.x * p2.y)

/-- Source `operator<`: `return XProduct(a, b) <= 0;`. -/
def Point.lt (a b : Point) : Bool :=
  decide (XProduct a b ≤ 0)

/-- Source `GrahamScanSerial::Turn`. -/
def Turn (p1 p2 : Point) : TurnDir :=
  let x_product := XProduct p1 p2
  if x_product > 0 then TurnDir.RIGHT
  else if x_product = 0 then TurnDir.NONE
  else TurnDir.LEFT

/-- The cross product `u.x * v.y - u.y * v.x` of the specification. -/
def cross (u v : Point) : Int :=
  u.x * v.y - u.y * v.x

/-- Twice the signed area of the triangle `a b c`, that is
`cross (b - a) (c - a)`: positive iff `a → b → c` turns left. -/
def turnArea (a b c : Point) : Int :=
  (b.x - a.x) * (c.y - a.y) - (b.y - a.y) * (c.x - a.x)

/-! ## 32-bit arithmetic (`Num_Type = int`) -/

/-- The value of a 32-bit `int` that holds `z` modulo `2^32`
(two's complement, range `-2^31 .. 2^31 - 1`). -/
def wrapInt32 (z : Int) : Int :=
  (z + 2147483648) % 4294967296 - 2147483648

/-- Source `XProduct` for `Num_Type = int` with 32-bit arithmetic: both
products and the difference are computed in `int`, and only the result is
converted to `float`. -/
def XProduct32 (p1 p2 : Point) : Int :=
  toFloat (wrapInt32 (wrapInt32 (p2.x * p1.y) - wrapInt32 (p1.x * p2.y)))

/-- Source `GrahamScanSerial::Turn` over `XProduct32`. -/
def Turn32 (p1 p2 : Point) : TurnDir :=
  let x_product := XProduct32 p1 p2
  if x_product > 0 then TurnDir.RIGHT
  else if x_product = 0 then TurnDir.NONE
  else TurnDir.LEFT

/-- Source `operator-` for `Num_Type = int` with 32-bit arithmetic; `tmp.id` is
never assigned (`uninit`). -/
def Point.sub32 (uninit : Int) (p1 p2 : Point) : Point :=
  { x := wrapInt32 (p1.x - p2.x), y := wrapInt32 (p1.y - p2.y), id := uninit }

/-- The integer `z` is the value of a 32-bit `int`. -/
def InInt32 (z : Int) : Prop :=
  -2147483648 ≤ z ∧ z < 2147483648

instance : DecidablePred InInt32 := fun z =>
  inferInstanceAs (Decidable (-2147483648 ≤ z ∧ z < 2147483648))

/-- No overflow on `pts`: for all points `a`, `b`, `c` of `pts`, the coordinate
differences of `a - b` and the value `XProduct(a - b, c - b)` that
`Turn(a - b, c - b)` computes are values of a 32-bit `int`. -/
def NoOverflow32 (pts : List Point) : Prop :=
  ∀ a ∈ pts, ∀ b ∈ pts, ∀ c ∈ pts,
    InInt32 (a.x - b.x) ∧ InInt32 (a.y - b.y) ∧
    InInt32 ((c.x - b.x) * (a.y - b.y) - (a.x - b.x) * (c.y - b.y))

instance : DecidablePred NoOverflow32 := fun pts =>
  inferInstanceAs (Decidable (∀ a ∈ pts, ∀ b ∈ pts, ∀ c ∈ pts,
    InInt32 (a.x - b.x) ∧ InInt32 (a.y - b.y) ∧
    InInt32 ((c.x - b.x) * (a.y - b.y) - (a.x - b.x) * (c.y - b.y))))

/-! ## Geometry -/

/-- The region of the centred non-pivot points: `y > 0`, or `y = 0` and `x > 0`. -/
def UpperHalf (p : Point) : Prop :=
  0 < p.y ∨ (p.y = 0 ∧ 0 < p.x)

instance : DecidablePred UpperHalf := fun p =>
  inferInstanceAs (Decidable (0 < p.y ∨ (p.y = 0 ∧ 0 < p.x)))

/-- Every three consecutive elements `c, b, a` of a stack (head = top, so
pushed in the order `a, b, c`) make a strict left turn `a → b → c`. -/
def StrictTurns : List Point → Prop
  | c :: b :: a :: l => 0 < turnArea a b c ∧ StrictTurns (b :: a :: l)
  | _ => True

/-- The property `P a b c` holds of every three consecutive elements `a, b, c`
of the list. -/
def AllTriples (P : Point → Point → Point → Prop) : List Point → Prop
  | a :: b :: c :: l => P a b c ∧ AllTriples P (b :: c :: l)
  | _ => True

/-- The property `P a b c` holds of every three consecutive elements of the
list traversed in order and wrapping from the last element to the first. -/
def AllCyclicTriples (P : Point → Point → Point → Prop) (l : List Point) : Prop :=
  AllTriples P (l ++ l.take 2)

/-- Every point `r` of `P` lies on the left of, or on, the directed line
`a → b` (`cross (b - a) (r - a) ≥ 0`) for every two adjacent elements of the
stack, `b` directly above `a` (so `a` was pushed before `b`). -/
def EdgesSupport (P : List Point) : List Point → Prop
  | b :: a :: l => (∀ r ∈ P, 0 ≤ turnArea a b r) ∧ EdgesSupport P (a :: l)
  | _ => True

/-- Geometric invariant of the `for` loop of `RunExact` once `points_[3]` has been
visited: the points visited so far are on the left of every edge of the stack,
the top of the stack is strictly to the left of the ray through `points_[1]`,
and no visited point is to the left of the ray through the top. -/
def GeoInv (p1 : Point) (done s : List Point) : Prop :=
  EdgesSupport done s ∧
    ∀ t, s.head? = some t → 0 < cross p1 t ∧ ∀ r ∈ done, 0 ≤ cross r t

/-- The point `q` lies strictly inside the convex hull of `pts`: every open
half-plane bounded by a line through `q` (the points `r` with
`cross (dx, dy) (r - q) > 0`, for a direction `(dx, dy) ≠ 0`) contains a point
of `pts`. -/
def StrictlyInside (pts : List Point) (q : Point) : Prop :=
  ∀ dx dy : Int, (dx ≠ 0 ∨ dy ≠ 0) →
    ∃ r ∈ pts, 0 < dx * (r.y - q.y) - dy * (r.x - q.x)

/-- Shape of the stack `s` (head = top) of the `for` loop of `Run` when the
points `done` have been visited, whatever `Turn` answers: the two bottom
elements are `points_[1]` and `points_[0]`, at least one element lies above
them, the stack read bottom-to-top is a subsequence of `done`, and its top is
the last point visited. -/
def StackShape (p0 p1 : Point) (done s : List Point) : Prop :=
  ∃ U, s = U ++ [p1, p0] ∧ U ≠ [] ∧ s.reverse.Sublist done ∧ s.head? = done.getLast?

/-- Structural invariant of the `for` loop of `RunExact`, for the points `done`
visited so far and the stack `s` (head = top): the two bottom elements are
`points_[1]` and `points_[0]`, at least one element lies above them, the stack
read bottom-to-top is a subsequence of `done`, its top is the last point
visited, and every three consecutive elements above `points_[0]` make a strict
left turn. -/
def StackInv (p0 p1 : Point) (done s : List Point) : Prop :=
  ∃ U, s = U ++ [p1, p0] ∧ U ≠ [] ∧ s.reverse.Sublist done ∧
    StrictTurns (U ++ [p1]) ∧ s.head? = done.getLast?

/-! ## The scan -/

/-- The inner `while` loop of `Run`, with state `(s, top1, top2)`:
```
while (Turn(top1 - top2, current_point - top2) != LEFT) {
  top1 = s.top(); s.pop(); top2 = s.top();
}
```
`turn` and `sub` are the `Turn` and the `operator-` of the instantiated
`Num_Type`.  It returns the state at the exit of the loop; at `s.top()` on the
empty stack the behaviour is undefined (`UndefinedBehaviour.topOfEmptyStack`). -/
def scanWhile (turn : Point → Point → TurnDir) (sub : Point → Point → Point)
    (current_point : Point) :
    List Point → Point → Point → Except UndefinedBehaviour (List Point × Point × Point)
  | [], top1, top2 =>
    if turn (sub top1 top2) (sub current_point top2) ≠ TurnDir.LEFT then
      Except.error UndefinedBehaviour.topOfEmptyStack
    else Except.ok ([], top1, top2)
  | t :: s, top1, top2 =>
    if turn (sub top1 top2) (sub current_point top2) ≠ TurnDir.LEFT then
      match s with
      | [] => Except.error UndefinedBehaviour.topOfEmptyStack
      | t2 :: _ => scanWhile turn sub current_point s t t2
    else Except.ok (t :: s, top1, top2)

/-- One iteration of the `for` loop of `Run` on the stack `s` for
`current_point = points_[i]`:
```
top1 = s.top(); s.pop(); top2 = s.top();
current_point = points_[i];
while (...) { ... }
s.push(top1); s.push(current_point);
```
-/
def scanStep (turn : Point → Point → TurnDir) (sub : Point → Point → Point)
    (current_point : Point) (s : List Point) : Except UndefinedBehaviour (List Point) :=
  match s with
  | [] => Except.error UndefinedBehaviour.topOfEmptyStack
  | top1 :: s1 =>
    match s1 with
    | [] => Except.error UndefinedBehaviour.topOfEmptyStack
    | top2 :: _ =>
      match scanWhile turn sub current_point s1 top1 top2 with
      | Except.error e => Except.error e
      | Except.ok (s2, t1, _) => Except.ok (current_point :: t1 :: s2)

/-- The `for (int i = 3; i < points_.size(); i++)` loop of `Run`, over the
points `points_[3], points_[4], ...` still to be visited. -/
def scanLoop (turn : Point → Point → TurnDir) (sub : Point → Point → Point) :
    List Point → List Point → Except UndefinedBehaviour (List Point)
  | [], s => Except.ok s
  | current_point :: rest, s =>
    match scanStep turn sub current_point s with
    | Except.error e => Except.error e
    | Except.ok s1 => scanLoop turn sub rest s1

/-- The stack of `Run` when the `for` loop has ended (head = top):
`s.push(points_[0]); s.push(points_[1]); s.push(points_[2]);` followed by the
loop; reading `points_[0..2]` of a shorter vector is undefined
(`UndefinedBehaviour.readOutOfRange`). -/
def RunStackWith (turn : Point → Point → TurnDir) (sub : Point → Point → Point)
    (points_ : List Point) : Except UndefinedBehaviour (List Point) :=
  match points_ with
  | p0 :: p1 :: p2 :: rest => scanLoop turn sub rest [p2, p1, p0]
  | _ => Except.error UndefinedBehaviour.readOutOfRange

/-- Source `GrahamScanSerial::Run` for given `Turn` and `operator-`: the final
loop pops the stack from the top and appends each `id` to `hull`. -/
def RunWith (turn : Point → Point → TurnDir) (sub : Point → Point → Point)
    (points_ : List Point) : Except UndefinedBehaviour (List Int) :=
  match RunStackWith turn sub points_ with
  | Except.error e => Except.error e
  | Except.ok s => Except.ok (s.map Point.id)

/-- The stack of `GrahamScanSerial<int>::Run` at the end of its `for` loop. -/
def RunStack (uninit : Int) (points_ : List Point) :
    Except UndefinedBehaviour (List Point) :=
  RunStackWith Turn32 (Point.sub32 uninit) points_

/-- Source `GrahamScanSerial<int>::Run`, the instance the program uses
(`SolveSerial(GrahamScanSerial<int>*)`): 32-bit `operator-` and `Turn`. -/
def Run (uninit : Int) (points_ : List Point) :
    Except UndefinedBehaviour (List Int) :=
  RunWith Turn32 (Point.sub32 uninit) points_

/-- The stack of `Run` computed in exact arithmetic. -/
def RunStackExact (uninit : Int) (points_ : List Point) :
    Except UndefinedBehaviour (List Point) :=
  RunStackWith Turn (Point.sub uninit) points_

/-- `Run` computed in exact arithmetic (no overflow). -/
def RunExact (uninit : Int) (points_ : List Point) :
    Except UndefinedBehaviour (List Int) :=
  RunWith Turn (Point.sub uninit) points_

/-- The results that the specification lets the scan report to its caller: a
hull, or the failure `HullDegenerateError`. -/
inductive SpecResult where
  | hull (ids : List Int)
  | hullDegenerateError
deriving DecidableEq, Repr

/-- What an execution of `Run` reports to its caller, in the specification's
terms: the returned vector `hull`, and nothing where the behaviour is
undefined, since `Run` has no `throw`, no error return and no guard. -/
def reported : Except UndefinedBehaviour (List Int) → Option SpecResult
  | Except.ok hull => some (SpecResult.hull hull)
  | Except.error _ => none

/-! ## Sample inputs -/

/-- The square of the specification with its interior point, prepared: pivot
first, the others by polar angle, the tie `(1,1)`, `(2,2)` by increasing distance. -/
def squareWithInterior : List Point :=
  [⟨0, 0, 0⟩, ⟨2, 0, 3⟩, ⟨1, 1, 4⟩, ⟨2, 2, 2⟩, ⟨0, 2, 1⟩]

/-- The same points with the tie `(2,2)`, `(1,1)` in the other order. -/
def squareWithInteriorSwapped : List Point :=
  [⟨0, 0, 0⟩, ⟨2, 0, 3⟩, ⟨2, 2, 2⟩, ⟨1, 1, 4⟩, ⟨0, 2, 1⟩]

/-- The square of the specification, prepared. -/
def squarePoints : List Point :=
  [⟨0, 0, 0⟩, ⟨2, 0, 3⟩, ⟨2, 2, 2⟩, ⟨0, 2, 1⟩]

/-- The triangle with a point on its bottom edge of the specification,
prepared with the tie `(2,0)`, `(4,0)` by increasing distance from the pivot. -/
def triangleWithEdgePoint : List Point :=
  [⟨0, 0, 0⟩, ⟨2, 0, 2⟩, ⟨4, 0, 1⟩, ⟨2, 4, 3⟩]

/-- Three points on one ray from the pivot, by increasing distance, and a
fourth point off that ray. -/
def rayThenCorner : List Point :=
  [⟨0, 0, 0⟩, ⟨1, 0, 1⟩, ⟨2, 0, 2⟩, ⟨3, 0, 3⟩, ⟨0, 1, 4⟩]

/-- Four identical points. -/
def fourIdentical : List Point :=
  [⟨5, 7, 0⟩, ⟨5, 7, 1⟩, ⟨5, 7, 2⟩, ⟨5, 7, 3⟩]

/-- A square of side `50000`, prepared: pivot first, strictly increasing angles. -/
def overflowSquare : List Point :=
  [⟨0, 0, 0⟩, ⟨50000, 0, 1⟩, ⟨50000, 50000, 2⟩, ⟨0, 50000, 3⟩]

/-- A triangle of side `60000` with the interior point `(10000, 1000)`,
prepared: pivot first, strictly increasing angles. -/
def wideTriangle : List Point :=
  [⟨0, 0, 0⟩, ⟨60000, 0, 1⟩, ⟨10000, 1000, 2⟩, ⟨0, 60000, 3⟩]

/-- Five points, prepared: pivot first, strictly increasing angles; all five
are vertices of their convex hull. -/
def widePentagon : List Point :=
  [⟨0, 0, 0⟩, ⟨10000, 0, 1⟩, ⟨20000, 10000, 2⟩, ⟨50000, 30000, 3⟩, ⟨0, 60000, 4⟩]

/-- Squared distance from the origin. -/
def distSq (p : Point) : Int :=
  p.x * p.x + p.y * p.y

/-! ## Reading, centring, comparing -/

/-- Source `GrahamScanSerial::NonLeftTurn`:
`return XProduct(p1 - p0, p2 - p0) > 0;`. -/
def NonLeftTurn (uninit : Int) (p0 p1 p2 : Point) : Bool :=
  decide (XProduct (Point.sub uninit p1 p0) (Point.sub uninit p2 p0) > 0)

/-- The loop of `ReadFile` over the coordinates parsed from the remaining
lines, with state `idx` and `curr_min`: each line gives
`current_point = {x, y, idx}`, `curr_min` is updated by
```
if (idx == 0 ||
    (current_point.y == curr_min.y && current_point.x < curr_min.x) ||
    current_point.y < curr_min.y) { curr_min = current_point; }
```
and the point is stored in `points_[idx]`.  The result is the part of `points_`
written from `idx` on and the final `curr_min`. -/
def readLoop : List (Int × Int) → Nat → Point → List Point × Point
  | [], _, curr_min => ([], curr_min)
  | (x, y) :: lines, idx, curr_min =>
    let current_point : Point := { x := x, y := y, id := idx }
    let r := readLoop lines (idx + 1)
      (if idx = 0 ∨ (current_point.y = curr_min.y ∧ current_point.x < curr_min.x) ∨
          current_point.y < curr_min.y then current_point else curr_min)
    (current_point :: r.1, r.2)

/-- Source `ReadFile`, for the coordinates parsed from the lines of a file
whose declared count matches: the result is `(points_, p0_)`, with
`p0_ = curr_min`; `curr_min` starts unassigned (`uninit`). -/
def ReadFile (uninit : Point) (lines : List (Int × Int)) : List Point × Point :=
  readLoop lines 0 uninit

/-- The loop of `CenterP0` from index `i` on: `points_[i] = points_[i] - p0_`.
Each call of `operator-` leaves its own unassigned `id`, `uninit i`. -/
def centerLoop (uninit : Nat → Int) (p0_ : Point) : Nat → List Point → List Point
  | _, [] => []
  | i, p :: ps => Point.sub (uninit i) p p0_ :: centerLoop uninit p0_ (i + 1) ps

/-- Source `GrahamScanSerial::CenterP0`. -/
def CenterP0 (uninit : Nat → Int) (p0_ : Point) (points_ : List Point) : List Point :=
  centerLoop uninit p0_ 0 points_

/-- The order of the pivot selection: lower `y` first, then lower `x`. -/
def lexLe (p q : Point) : Prop :=
  p.y < q.y ∨ (p.y = q.y ∧ p.x ≤ q.x)

/-- Four points of a file, as parsed. -/
def sampleLines : List (Int × Int) :=
  [(3, 1), (2, -1), (-1, -1), (0, 5)]

/-- Every element of the list compares `operator<` to its successor. -/
def isLtChain : List Point → Bool
  | a :: b :: l => Point.lt a b && isLtChain (b :: l)
  | _ => true

/-- The corners of the unit square as parsed from a file, pivot `(0,0)` first. -/
def unitSquareLines : List (Int × Int) :=
  [(0, 0), (1, 0), (1, 1), (0, 1)]

/-- The centred corners of the unit square with the pivot in second place. -/
def pivotSecond : List Point :=
  [⟨1, 0, 0⟩, ⟨0, 0, 0⟩, ⟨1, 1, 0⟩, ⟨0, 1, 0⟩]

/-! ## Theorems -/

theorem roundSignificand_eq_zero (n : Nat) : roundSignificand n = 0 ↔ n = 0 := by
  unfold roundSignificand
  by_cases h : n < 2 ^ 24
  · rw [if_pos h]
  · have hn : n ≠ 0 := by
      intro h0
      apply h
      rw [h0]
      exact Nat.pos_pow_of_pos 24 (by decide)
    have hle : 2 ^ (Nat.log2 n - 23) ≤ n :=
      le_trans (Nat.pow_le_pow_right (by decide) (Nat.sub_le _ _)) (Nat.log2_self_le hn)
    have hpos : 0 < 2 ^ (Nat.log2 n - 23) := Nat.pos_pow_of_pos _ (by decide)
    have hq : 0 < n / 2 ^ (Nat.log2 n - 23) := Nat.div_pos hle hpos
    have h1 : n / 2 ^ (Nat.log2 n - 23) * 2 ^ (Nat.log2 n - 23) ≠ 0 :=
      Nat.ne_of_gt (Nat.mul_pos hq hpos)
    have h2 : (n / 2 ^ (Nat.log2 n - 23) + 1) * 2 ^ (Nat.log2 n - 23) ≠ 0 :=
      Nat.ne_of_gt (Nat.mul_pos (Nat.succ_pos _) hpos)
    rw [if_neg h]
    simp only []
    split_ifs <;> simp [hn, h1, h2]

theorem roundSignificand_pos {n : Nat} (h : 0 < n) : 0 < roundSignificand n :=
  Nat.pos_of_ne_zero (fun h0 => Nat.ne_of_gt h ((roundSignificand_eq_zero n).1 h0))

theorem toFloat_pos (z : Int) : 0 < toFloat z ↔ 0 < z := by
  unfold toFloat
  have hnn : (0 : Int) ≤ ((roundSignificand z.natAbs : Nat) : Int) := Int.ofNat_nonneg _
  by_cases hz : z < 0
  · rw [if_pos hz]
    constructor
    · intro h; omega
    · intro h; omega
  · rw [if_neg hz]
    constructor
    · intro h
      have h1 : roundSignificand z.natAbs ≠ 0 := by omega
      have h2 : z.natAbs ≠ 0 := fun h0 => h1 ((roundSignificand_eq_zero _).2 h0)
      omega
    · intro h
      have h1 : 0 < roundSignificand z.natAbs := roundSignificand_pos (by omega)
      omega

theorem toFloat_eq_zero (z : Int) : toFloat z = 0 ↔ z = 0 := by
  unfold toFloat
  by_cases hz : z < 0
  · rw [if_pos hz]
    have h1 : 0 < roundSignificand z.natAbs := roundSignificand_pos (by omega)
    constructor
    · intro h; omega
    · intro h; omega
  · rw [if_neg hz]
    constructor
    · intro h
      have h1 : roundSignificand z.natAbs = 0 := by omega
      have h2 : z.natAbs = 0 := (roundSignificand_eq_zero _).1 h1
      omega
    · intro h
      subst h
      have h1 : roundSignificand (0 : Int).natAbs = 0 := (roundSignificand_eq_zero _).2 rfl
      omega

/-- `Turn` in terms of the sign of the cross product of the specification. -/
theorem Turn_eq (u v : Point) :
    Turn u v = if cross u v < 0 then TurnDir.RIGHT
      else if cross u v = 0 then TurnDir.NONE else TurnDir.LEFT := by
  unfold Turn XProduct cross
  simp only [gt_iff_lt, toFloat_pos, toFloat_eq_zero]
  have e1 : (0 < v.x * u.y - u.x * v.y) ↔ (u.x * v.y - u.y * v.x < 0) := by
    constructor <;> intro h <;> nlinarith [mul_comm v.x u.y]
  have e2 : (v.x * u.y - u.x * v.y = 0) ↔ (u.x * v.y - u.y * v.x = 0) := by
    constructor <;> intro h <;> nlinarith [mul_comm v.x u.y]
  simp only [e1, e2]

theorem Turn_left_iff (u v : Point) : Turn u v = TurnDir.LEFT ↔ 0 < cross u v := by
  rw [Turn_eq]
  split_ifs with h1 h2
  · simp; omega
  · simp; omega
  · simp; omega

theorem Turn_none_iff (u v : Point) : Turn u v = TurnDir.NONE ↔ cross u v = 0 := by
  rw [Turn_eq]
  split_ifs with h1 h2
  · simp; omega
  · simp; omega
  · simp; omega

theorem Turn_right_iff (u v : Point) : Turn u v = TurnDir.RIGHT ↔ cross u v < 0 := by
  rw [Turn_eq]
  split_ifs with h1 h2
  · simp; omega
  · simp; omega
  · simp; omega

/-- C1: for all integer vectors `u`, `v`, `Turn u v` classifies by the sign of
`cross = u.x * v.y - u.y * v.x`: it is `LEFT` iff `cross > 0`, `NONE` iff
`cross = 0` and `RIGHT` iff `cross < 0`. -/
theorem Turn_classifies_by_cross_sign (u v : Point) :
    (Turn u v = TurnDir.LEFT ↔ 0 < u.x * v.y - u.y * v.x) ∧
    (Turn u v = TurnDir.NONE ↔ u.x * v.y - u.y * v.x = 0) ∧
    (Turn u v = TurnDir.RIGHT ↔ u.x * v.y - u.y * v.x < 0) :=
  ⟨Turn_left_iff u v, Turn_none_iff u v, Turn_right_iff u v⟩

/-! ### 32-bit arithmetic without overflow -/

theorem wrapInt32_sub_wrap (a b : Int)
    (h : -2147483648 ≤ a - b ∧ a - b < 2147483648) :
    wrapInt32 (wrapInt32 a - wrapInt32 b) = a - b := by
  unfold wrapInt32
  omega

/-- `Turn32` in terms of the sign of the wrapped 32-bit value. -/
theorem Turn32_eq (u v : Point) :
    Turn32 u v =
      if 0 < wrapInt32 (wrapInt32 (v.x * u.y) - wrapInt32 (u.x * v.y)) then TurnDir.RIGHT
      else if wrapInt32 (wrapInt32 (v.x * u.y) - wrapInt32 (u.x * v.y)) = 0 then TurnDir.NONE
      else TurnDir.LEFT := by
  unfold Turn32 XProduct32
  simp only [gt_iff_lt, toFloat_pos, toFloat_eq_zero]

/-- `Turn32` as a function of the sign of the wrapped 32-bit value. -/
theorem Turn32_fun_eq : Turn32 = fun u v =>
    if 0 < wrapInt32 (wrapInt32 (v.x * u.y) - wrapInt32 (u.x * v.y)) then TurnDir.RIGHT
    else if wrapInt32 (wrapInt32 (v.x * u.y) - wrapInt32 (u.x * v.y)) = 0 then TurnDir.NONE
    else TurnDir.LEFT :=
  funext fun u => funext fun v => Turn32_eq u v

theorem wrapInt32_of_InInt32 {z : Int} (h : InInt32 z) : wrapInt32 z = z := by
  unfold InInt32 at h
  unfold wrapInt32
  omega

/-- Where no difference and no cross product of differences overflows, the
32-bit `Turn` of the 32-bit differences is the `Turn` of exact arithmetic. -/
theorem Turn32_sub32_eq (g : Int) {pts : List Point} (hno : NoOverflow32 pts) :
    ∀ a ∈ pts, ∀ b ∈ pts, ∀ c ∈ pts,
      Turn32 (Point.sub32 g a b) (Point.sub32 g c b) =
        Turn (Point.sub g a b) (Point.sub g c b) := by
  intro a ha b hb c hc
  obtain ⟨hax, hay, hX⟩ := hno a ha b hb c hc
  obtain ⟨hcx, hcy, _⟩ := hno c hc b hb a ha
  unfold Turn32 XProduct32 Turn XProduct Point.sub32 Point.sub
  simp only [wrapInt32_of_InInt32 hax, wrapInt32_of_InInt32 hay, wrapInt32_of_InInt32 hcx,
    wrapInt32_of_InInt32 hcy]
  rw [wrapInt32_sub_wrap _ _ hX]

/-- Coordinates of absolute value at most `16383` overflow nowhere. -/
theorem NoOverflow32_of_small_coordinates (pts : List Point)
    (h : ∀ p ∈ pts, (-16383 ≤ p.x ∧ p.x ≤ 16383) ∧ (-16383 ≤ p.y ∧ p.y ≤ 16383)) :
    NoOverflow32 pts := by
  intro a ha b hb c hc
  obtain ⟨⟨a1, a2⟩, a3, a4⟩ := h a ha
  obtain ⟨⟨b1, b2⟩, b3, b4⟩ := h b hb
  obtain ⟨⟨c1, c2⟩, c3, c4⟩ := h c hc
  have hux : -32766 ≤ a.x - b.x ∧ a.x - b.x ≤ 32766 := by omega
  have huy : -32766 ≤ a.y - b.y ∧ a.y - b.y ≤ 32766 := by omega
  have hvx : -32766 ≤ c.x - b.x ∧ c.x - b.x ≤ 32766 := by omega
  have hvy : -32766 ≤ c.y - b.y ∧ c.y - b.y ≤ 32766 := by omega
  refine ⟨⟨by omega, by omega⟩, ⟨by omega, by omega⟩, ?_, ?_⟩
  · nlinarith [mul_nonneg (sub_nonneg.2 hvx.2) (sub_nonneg.2 huy.1),
      mul_nonneg (sub_nonneg.2 hvx.1) (sub_nonneg.2 huy.2),
      mul_nonneg (sub_nonneg.2 hux.2) (sub_nonneg.2 hvy.2),
      mul_nonneg (sub_nonneg.2 hux.1) (sub_nonneg.2 hvy.1)]
  · nlinarith [mul_nonneg (sub_nonneg.2 hvx.2) (sub_nonneg.2 huy.2),
      mul_nonneg (sub_nonneg.2 hvx.1) (sub_nonneg.2 huy.1),
      mul_nonneg (sub_nonneg.2 hux.2) (sub_nonneg.2 hvy.1),
      mul_nonneg (sub_nonneg.2 hux.1) (sub_nonneg.2 hvy.2)]

/-! ### The loop of `Run`, structurally -/

theorem cross_sub (g : Int) (a b c : Point) :
    cross (Point.sub g b a) (Point.sub g c a) = turnArea a b c := rfl

theorem Turn_sub_left_iff (g : Int) (a b c : Point) :
    Turn (Point.sub g b a) (Point.sub g c a) = TurnDir.LEFT ↔ 0 < turnArea a b c := by
  rw [Turn_left_iff, cross_sub]

/-- What the exit state of the inner loop looks like, whatever `Turn` and
`operator-` compute: the elements `popped` were removed, `t1` is the last
removed element that is pushed back, `t2` is the top of what remains, the test
for `t2`, `t1`, `current_point` answered `LEFT`, and the test for the element
removed just before `t1` did not. -/
theorem scanWhile_shape (turn : Point → Point → TurnDir) (sub : Point → Point → Point)
    (cur : Point) :
    ∀ (s : List Point) (top1 top2 : Point) (s2 : List Point) (t1 t2 : Point),
      s.head? = some top2 →
      scanWhile turn sub cur s top1 top2 = Except.ok (s2, t1, t2) →
      ∃ popped kept, top1 :: s = popped ++ t1 :: t2 :: kept ∧ s2 = t2 :: kept ∧
        turn (sub t1 t2) (sub cur t2) = TurnDir.LEFT ∧
        ∀ pre c, popped = pre ++ [c] → turn (sub c t1) (sub cur t1) ≠ TurnDir.LEFT := by
  intro s
  induction s with
  | nil => intro top1 top2 s2 t1 t2 hh; simp at hh
  | cons t s ih =>
    intro top1 top2 s2 t1 t2 hh hrun
    simp only [List.head?_cons, Option.some.injEq] at hh
    subst hh
    unfold scanWhile at hrun
    by_cases hT : turn (sub top1 t) (sub cur t) = TurnDir.LEFT
    · rw [if_neg (not_not.2 hT)] at hrun
      simp only [Except.ok.injEq, Prod.mk.injEq] at hrun
      obtain ⟨h1, h2, h3⟩ := hrun
      subst h1 h2 h3
      refine ⟨[], s, rfl, rfl, hT, ?_⟩
      intro pre c hpc
      simp at hpc
    · rw [if_pos hT] at hrun
      cases s with
      | nil => simp at hrun
      | cons t2n s3 =>
        simp only at hrun
        obtain ⟨popped, kept, hdec, hs2, hleft, hpop⟩ :=
          ih t t2n s2 t1 t2 rfl hrun
        refine ⟨top1 :: popped, kept, ?_, hs2, hleft, ?_⟩
        · rw [hdec]; rfl
        · intro pre c hpc
          cases pre with
          | nil =>
            simp only [List.nil_append, List.cons.injEq] at hpc
            obtain ⟨hc, hp⟩ := hpc
            subst hc hp
            simp only [List.nil_append, List.cons.injEq] at hdec
            obtain ⟨ht, _⟩ := hdec
            subst ht
            exact hT
          | cons a pre2 =>
            simp only [List.cons_append, List.cons.injEq] at hpc
            exact hpop pre2 c hpc.2

/-- One iteration of the `for` loop, when it ends, whatever `Turn` and
`operator-` compute. -/
theorem scanStep_shape (turn : Point → Point → TurnDir) (sub : Point → Point → Point)
    (cur : Point) (s s1 : List Point) (h : scanStep turn sub cur s = Except.ok s1) :
    ∃ popped t1 t2 kept, s = popped ++ t1 :: t2 :: kept ∧ s1 = cur :: t1 :: t2 :: kept ∧
      turn (sub t1 t2) (sub cur t2) = TurnDir.LEFT ∧
      ∀ pre c, popped = pre ++ [c] → turn (sub c t1) (sub cur t1) ≠ TurnDir.LEFT := by
  unfold scanStep at h
  cases s with
  | nil => simp at h
  | cons top1 s0 =>
    cases s0 with
    | nil => simp at h
    | cons top2 s3 =>
      simp only at h
      cases hw : scanWhile turn sub cur (top2 :: s3) top1 top2 with
      | error e => rw [hw] at h; simp at h
      | ok r =>
        obtain ⟨s2, t1, t2⟩ := r
        rw [hw] at h
        simp only [Except.ok.injEq] at h
        obtain ⟨popped, kept, hdec, hs2, hleft, hpop⟩ :=
          scanWhile_shape turn sub cur (top2 :: s3) top1 top2 s2 t1 t2 rfl hw
        refine ⟨popped, t1, t2, kept, hdec, ?_, hleft, hpop⟩
        rw [← h, hs2]

/-- One iteration of the `for` loop in exact arithmetic, when it ends. -/
theorem scanStep_spec (g : Int) (cur : Point) (s s1 : List Point)
    (h : scanStep Turn (Point.sub g) cur s = Except.ok s1) :
    ∃ popped t1 t2 kept, s = popped ++ t1 :: t2 :: kept ∧ s1 = cur :: t1 :: t2 :: kept ∧
      0 < turnArea t2 t1 cur ∧
      ∀ pre c, popped = pre ++ [c] → turnArea t1 c cur ≤ 0 := by
  obtain ⟨popped, t1, t2, kept, hdec, hs1, hleft, hpop⟩ :=
    scanStep_shape Turn (Point.sub g) cur s s1 h
  refine ⟨popped, t1, t2, kept, hdec, hs1, (Turn_sub_left_iff g _ _ _).1 hleft, ?_⟩
  intro pre c hpc
  have := (Turn_sub_left_iff g t1 c cur).not.1 (hpop pre c hpc)
  omega

/-- The inner loop ends as soon as the test answers `LEFT` for some adjacent
pair further down the stack and the current point. -/
theorem scanWhile_ends (turn : Point → Point → TurnDir) (sub : Point → Point → Point)
    (cur : Point) :
    ∀ (s : List Point) (top1 top2 : Point) (A : List Point) (t1 t2 : Point) (kept : List Point),
      s.head? = some top2 →
      top1 :: s = A ++ t1 :: t2 :: kept → turn (sub t1 t2) (sub cur t2) = TurnDir.LEFT →
      ∃ r, scanWhile turn sub cur s top1 top2 = Except.ok r := by
  intro s
  induction s with
  | nil => intro top1 top2 A t1 t2 kept hh; simp at hh
  | cons t s ih =>
    intro top1 top2 A t1 t2 kept hh hdec hleft
    simp only [List.head?_cons, Option.some.injEq] at hh
    subst hh
    unfold scanWhile
    by_cases hT : turn (sub top1 t) (sub cur t) = TurnDir.LEFT
    · rw [if_neg (not_not.2 hT)]
      exact ⟨_, rfl⟩
    · rw [if_pos hT]
      cases A with
      | nil =>
        simp only [List.nil_append, List.cons.injEq] at hdec
        obtain ⟨h1, h2, _⟩ := hdec
        subst h1 h2
        exact absurd hleft hT
      | cons a A2 =>
        simp only [List.cons_append, List.cons.injEq] at hdec
        obtain ⟨_, hdec2⟩ := hdec
        cases s with
        | nil =>
          have hlen := congrArg List.length hdec2
          simp at hlen
          omega
        | cons t2n s3 =>
          simp only
          exact ih t t2n A2 t1 t2 kept rfl hdec2 hleft

theorem scanStep_ends (turn : Point → Point → TurnDir) (sub : Point → Point → Point)
    (cur : Point) (s A : List Point) (t1 t2 : Point)
    (kept : List Point) (hdec : s = A ++ t1 :: t2 :: kept)
    (hleft : turn (sub t1 t2) (sub cur t2) = TurnDir.LEFT) :
    ∃ s1, scanStep turn sub cur s = Except.ok s1 := by
  unfold scanStep
  cases s with
  | nil =>
    have hlen := congrArg List.length hdec
    simp at hlen
    omega
  | cons top1 s0 =>
    cases s0 with
    | nil =>
      have hlen := congrArg List.length hdec
      simp at hlen
      omega
    | cons top2 s3 =>
      simp only
      obtain ⟨r, hr⟩ :=
        scanWhile_ends turn sub cur (top2 :: s3) top1 top2 A t1 t2 kept rfl hdec hleft
      rw [hr]
      exact ⟨_, rfl⟩

/-- In exact arithmetic an iteration ends without underflow as soon as some
adjacent pair further down the stack makes a left turn with the current point. -/
theorem scanStep_progress (g : Int) (cur : Point) (s A : List Point) (t1 t2 : Point)
    (kept : List Point) (hdec : s = A ++ t1 :: t2 :: kept) (hleft : 0 < turnArea t2 t1 cur) :
    ∃ s1, scanStep Turn (Point.sub g) cur s = Except.ok s1 :=
  scanStep_ends Turn (Point.sub g) cur s A t1 t2 kept hdec ((Turn_sub_left_iff g _ _ _).2 hleft)

/-- Invariant rule for the `for` loop: `Inv done rest s` relates the points
already visited, the points still to visit and the stack. -/
theorem scanLoop_invariant (turn : Point → Point → TurnDir) (sub : Point → Point → Point)
    (Inv : List Point → List Point → List Point → Prop)
    (hstep : ∀ done cur rest s s1, Inv done (cur :: rest) s →
      scanStep turn sub cur s = Except.ok s1 → Inv (done ++ [cur]) rest s1) :
    ∀ (rest done s0 s : List Point), Inv done rest s0 →
      scanLoop turn sub rest s0 = Except.ok s → Inv (done ++ rest) [] s := by
  intro rest
  induction rest with
  | nil =>
    intro done s0 s hinv hrun
    simp only [scanLoop, Except.ok.injEq] at hrun
    subst hrun
    simpa using hinv
  | cons cur rest ih =>
    intro done s0 s hinv hrun
    unfold scanLoop at hrun
    cases hs : scanStep turn sub cur s0 with
    | error e => rw [hs] at hrun; simp at hrun
    | ok s1 =>
      rw [hs] at hrun
      simp only at hrun
      have := ih (done ++ [cur]) s1 s (hstep done cur rest s0 s1 hinv hs) hrun
      simpa using this

/-- Totality rule for the `for` loop: an invariant under which every iteration
succeeds makes the whole loop succeed. -/
theorem scanLoop_total (turn : Point → Point → TurnDir) (sub : Point → Point → Point)
    (Inv : List Point → List Point → List Point → Prop)
    (hstep : ∀ done cur rest s s1, Inv done (cur :: rest) s →
      scanStep turn sub cur s = Except.ok s1 → Inv (done ++ [cur]) rest s1)
    (hprog : ∀ done cur rest s, Inv done (cur :: rest) s →
      ∃ s1, scanStep turn sub cur s = Except.ok s1) :
    ∀ (rest done s0 : List Point), Inv done rest s0 →
      ∃ s, scanLoop turn sub rest s0 = Except.ok s := by
  intro rest
  induction rest with
  | nil => intro done s0 _; exact ⟨s0, rfl⟩
  | cons cur rest ih =>
    intro done s0 hinv
    obtain ⟨s1, hs1⟩ := hprog done cur rest s0 hinv
    unfold scanLoop
    rw [hs1]
    exact ih (done ++ [cur]) s1 (hstep done cur rest s0 s1 hinv hs1)

/-! ### The shape of the stack -/

/-- The part of the stack that an iteration keeps still ends with the two
bottom elements. -/
theorem kept_ends_with_bottom {U popped kept : List Point} {p0 p1 t1 t2 : Point}
    (h : U ++ [p1, p0] = popped ++ t1 :: t2 :: kept) :
    ∃ V, U = popped ++ V ∧ t1 :: t2 :: kept = V ++ [p1, p0] := by
  rcases List.append_eq_append_iff.1 h with ⟨a, ha1, ha2⟩ | ⟨c, hc1, hc2⟩
  · have hlen := congrArg List.length ha2
    simp at hlen
    have ha : a = [] := List.eq_nil_of_length_eq_zero (by omega)
    subst ha
    simp only [List.nil_append] at ha2
    simp only [List.append_nil] at ha1
    exact ⟨[], by simp [ha1], by simp [ha2]⟩
  · exact ⟨c, hc1, hc2⟩

theorem StackShape_step (turn : Point → Point → TurnDir) (sub : Point → Point → Point)
    (p0 p1 : Point) (done : List Point) (cur : Point)
    (s s1 : List Point) (hinv : StackShape p0 p1 done s)
    (hs : scanStep turn sub cur s = Except.ok s1) : StackShape p0 p1 (done ++ [cur]) s1 := by
  obtain ⟨U, hU, _, hsub, _⟩ := hinv
  obtain ⟨popped, t1, t2, kept, hdec, hs1, _, _⟩ := scanStep_shape turn sub cur s s1 hs
  rw [hU] at hdec
  obtain ⟨V, hUV, hV⟩ := kept_ends_with_bottom hdec
  have hs1V : s1 = (cur :: V) ++ [p1, p0] := by rw [hs1, hV]; rfl
  refine ⟨cur :: V, hs1V, by simp, ?_, ?_⟩
  · have h1 : (V ++ [p1, p0]).reverse.Sublist done := by
      refine List.Sublist.trans ?_ hsub
      rw [hU, hUV, List.append_assoc, List.reverse_append popped]
      exact List.sublist_append_left _ _
    rw [hs1V]
    have h2 : ((cur :: V) ++ [p1, p0]).reverse = (V ++ [p1, p0]).reverse ++ [cur] := by
      simp
    rw [h2]
    exact List.Sublist.append h1 (List.Sublist.refl _)
  · rw [hs1]; simp

/-- On every input on which the loop of `Run` ends, whatever `Turn` and
`operator-` compute, the final stack has the shape `StackShape` for the whole
of `points_`. -/
theorem RunStackWith_shape (turn : Point → Point → TurnDir) (sub : Point → Point → Point)
    (points_ s : List Point) (h : RunStackWith turn sub points_ = Except.ok s) :
    ∃ p0 p1 p2 rest, points_ = p0 :: p1 :: p2 :: rest ∧ StackShape p0 p1 points_ s := by
  unfold RunStackWith at h
  match points_, h with
  | p0 :: p1 :: p2 :: rest, h =>
    simp only at h
    refine ⟨p0, p1, p2, rest, rfl, ?_⟩
    have hinit : StackShape p0 p1 [p0, p1, p2] [p2, p1, p0] :=
      ⟨[p2], rfl, by simp, by simp, rfl⟩
    have := scanLoop_invariant turn sub (fun done _ s => StackShape p0 p1 done s)
      (fun done cur _ s s1 hi hs => StackShape_step turn sub p0 p1 done cur s s1 hi hs)
      rest [p0, p1, p2] [p2, p1, p0] s hinit h
    simpa using this

theorem RunWith_ok_iff (turn : Point → Point → TurnDir) (sub : Point → Point → Point)
    (points_ : List Point) (hull : List Int) :
    RunWith turn sub points_ = Except.ok hull ↔
      ∃ s, RunStackWith turn sub points_ = Except.ok s ∧ hull = s.map Point.id := by
  unfold RunWith
  cases hs : RunStackWith turn sub points_ with
  | error e => simp
  | ok s =>
    simp only [Except.ok.injEq, exists_eq_left']
    exact eq_comm

theorem Run_ok_iff (g : Int) (points_ : List Point) (hull : List Int) :
    Run g points_ = Except.ok hull ↔
      ∃ s, RunStack g points_ = Except.ok s ∧ hull = s.map Point.id :=
  RunWith_ok_iff Turn32 (Point.sub32 g) points_ hull

theorem RunExact_ok_iff (g : Int) (points_ : List Point) (hull : List Int) :
    RunExact g points_ = Except.ok hull ↔
      ∃ s, RunStackExact g points_ = Except.ok s ∧ hull = s.map Point.id :=
  RunWith_ok_iff Turn (Point.sub g) points_ hull

theorem RunStack_shape (g : Int) (points_ s : List Point)
    (h : RunStack g points_ = Except.ok s) :
    ∃ p0 p1 p2 rest, points_ = p0 :: p1 :: p2 :: rest ∧ StackShape p0 p1 points_ s :=
  RunStackWith_shape Turn32 (Point.sub32 g) points_ s h

/-! ### The 32-bit scan where nothing overflows -/

theorem scanWhile_congr (turn turn2 : Point → Point → TurnDir)
    (sub sub2 : Point → Point → Point) (S : List Point) (cur : Point) (hcur : cur ∈ S)
    (hagree : ∀ a ∈ S, ∀ b ∈ S, ∀ c ∈ S,
      turn (sub a b) (sub c b) = turn2 (sub2 a b) (sub2 c b)) :
    ∀ (s : List Point) (top1 top2 : Point), (∀ x ∈ s, x ∈ S) → top1 ∈ S → top2 ∈ S →
      scanWhile turn sub cur s top1 top2 = scanWhile turn2 sub2 cur s top1 top2 := by
  intro s
  induction s with
  | nil =>
    intro top1 top2 _ h1 h2
    unfold scanWhile
    rw [hagree top1 h1 top2 h2 cur hcur]
  | cons t s ih =>
    intro top1 top2 hs h1 h2
    unfold scanWhile
    rw [hagree top1 h1 top2 h2 cur hcur]
    by_cases hT : turn2 (sub2 top1 top2) (sub2 cur top2) = TurnDir.LEFT
    · rw [if_neg (not_not.2 hT), if_neg (not_not.2 hT)]
    · rw [if_pos hT, if_pos hT]
      cases s with
      | nil => rfl
      | cons t2n s3 =>
        simp only
        exact ih t t2n (fun x hx => hs x (List.mem_cons_of_mem _ hx))
          (hs t (List.mem_cons_self _ _)) (hs t2n (by simp))

theorem scanStep_congr (turn turn2 : Point → Point → TurnDir)
    (sub sub2 : Point → Point → Point) (S : List Point) (cur : Point) (hcur : cur ∈ S)
    (hagree : ∀ a ∈ S, ∀ b ∈ S, ∀ c ∈ S,
      turn (sub a b) (sub c b) = turn2 (sub2 a b) (sub2 c b))
    (s : List Point) (hs : ∀ x ∈ s, x ∈ S) :
    scanStep turn sub cur s = scanStep turn2 sub2 cur s := by
  unfold scanStep
  cases s with
  | nil => rfl
  | cons top1 s0 =>
    cases s0 with
    | nil => rfl
    | cons top2 s3 =>
      simp only
      rw [scanWhile_congr turn turn2 sub sub2 S cur hcur hagree (top2 :: s3) top1 top2
        (fun x hx => hs x (List.mem_cons_of_mem _ hx)) (hs top1 (List.mem_cons_self _ _))
        (hs top2 (by simp))]

theorem scanLoop_congr (turn turn2 : Point → Point → TurnDir)
    (sub sub2 : Point → Point → Point) (S : List Point)
    (hagree : ∀ a ∈ S, ∀ b ∈ S, ∀ c ∈ S,
      turn (sub a b) (sub c b) = turn2 (sub2 a b) (sub2 c b)) :
    ∀ (rest s : List Point), (∀ x ∈ rest, x ∈ S) → (∀ x ∈ s, x ∈ S) →
      scanLoop turn sub rest s = scanLoop turn2 sub2 rest s := by
  intro rest
  induction rest with
  | nil => intro s _ _; rfl
  | cons cur rest ih =>
    intro s hrest hs
    have hcur : cur ∈ S := hrest cur (List.mem_cons_self _ _)
    unfold scanLoop
    rw [scanStep_congr turn turn2 sub sub2 S cur hcur hagree s hs]
    cases hstep : scanStep turn2 sub2 cur s with
    | error e => rfl
    | ok s1 =>
      simp only
      refine ih s1 (fun x hx => hrest x (List.mem_cons_of_mem _ hx)) ?_
      obtain ⟨popped, t1, t2, kept, hdec, hs1, _, _⟩ :=
        scanStep_shape turn2 sub2 cur s s1 hstep
      intro x hx
      rw [hs1] at hx
      rcases List.mem_cons.1 hx with h | h
      · rw [h]; exact hcur
      · apply hs
        rw [hdec]
        exact List.mem_append_right _ h

/-- Where nothing overflows on the points of `S`, the 32-bit loop on points of
`S` is the loop of exact arithmetic. -/
theorem scanLoop_eq_exact (g : Int) (S : List Point) (hno : NoOverflow32 S)
    (rest s : List Point) (hrest : ∀ x ∈ rest, x ∈ S) (hs : ∀ x ∈ s, x ∈ S) :
    scanLoop Turn32 (Point.sub32 g) rest s = scanLoop Turn (Point.sub g) rest s :=
  scanLoop_congr Turn32 Turn (Point.sub32 g) (Point.sub g) S (Turn32_sub32_eq g hno) rest s
    hrest hs

theorem scanStep_eq_exact (g : Int) (S : List Point) (hno : NoOverflow32 S)
    (cur : Point) (hcur : cur ∈ S) (s : List Point) (hs : ∀ x ∈ s, x ∈ S) :
    scanStep Turn32 (Point.sub32 g) cur s = scanStep Turn (Point.sub g) cur s :=
  scanStep_congr Turn32 Turn (Point.sub32 g) (Point.sub g) S cur hcur (Turn32_sub32_eq g hno)
    s hs

/-- Where nothing overflows on `points_`, `Run` computes what exact arithmetic
computes. -/
theorem RunStack_eq_exact (g : Int) (points_ : List Point) (hno : NoOverflow32 points_) :
    RunStack g points_ = RunStackExact g points_ := by
  unfold RunStack RunStackExact RunStackWith
  match points_, hno with
  | [], _ => rfl
  | [_], _ => rfl
  | [_, _], _ => rfl
  | p0 :: p1 :: p2 :: rest, hno =>
    simp only
    apply scanLoop_eq_exact g (p0 :: p1 :: p2 :: rest) hno
    · intro x hx
      simp only [List.mem_cons]
      tauto
    · intro x hx
      simp only [List.mem_cons, List.mem_singleton, List.not_mem_nil, or_false] at hx
      simp only [List.mem_cons]
      tauto

theorem Run_eq_exact (g : Int) (points_ : List Point) (hno : NoOverflow32 points_) :
    Run g points_ = RunExact g points_ := by
  unfold Run RunExact RunWith
  have h := RunStack_eq_exact g points_ hno
  unfold RunStack RunStackExact at h
  rw [h]

/-! ### The structural invariant of the exact scan -/

theorem StrictTurns_tail {a : Point} {l : List Point} (h : StrictTurns (a :: l)) :
    StrictTurns l := by
  cases l with
  | nil => trivial
  | cons b l2 =>
    cases l2 with
    | nil => trivial
    | cons c l3 => exact h.2

theorem StrictTurns_suffix (A : List Point) {B : List Point} (h : StrictTurns (A ++ B)) :
    StrictTurns B := by
  induction A with
  | nil => exact h
  | cons a A ih => exact ih (StrictTurns_tail h)

theorem StackInv_step (g : Int) (p0 p1 : Point) (done : List Point) (cur : Point)
    (s s1 : List Point) (hinv : StackInv p0 p1 done s)
    (hs : scanStep Turn (Point.sub g) cur s = Except.ok s1) :
    StackInv p0 p1 (done ++ [cur]) s1 := by
  obtain ⟨U, hU, _, hsub, hturn, _⟩ := hinv
  obtain ⟨popped, t1, t2, kept, hdec, hs1, hleft, _⟩ := scanStep_spec g cur s s1 hs
  rw [hU] at hdec
  obtain ⟨V, hUV, hV⟩ := kept_ends_with_bottom hdec
  have hs1V : s1 = (cur :: V) ++ [p1, p0] := by rw [hs1, hV]; rfl
  refine ⟨cur :: V, hs1V, by simp, ?_, ?_, ?_⟩
  · have h1 : (V ++ [p1, p0]).reverse.Sublist done := by
      refine List.Sublist.trans ?_ hsub
      rw [hU, hUV, List.append_assoc, List.reverse_append popped]
      exact List.sublist_append_left _ _
    rw [hs1V]
    have h2 : ((cur :: V) ++ [p1, p0]).reverse = (V ++ [p1, p0]).reverse ++ [cur] := by
      simp
    rw [h2]
    exact List.Sublist.append h1 (List.Sublist.refl _)
  · have hVt : StrictTurns (V ++ [p1]) := by
      rw [hUV, List.append_assoc] at hturn
      exact StrictTurns_suffix popped hturn
    cases V with
    | nil => trivial
    | cons v V2 =>
      cases V2 with
      | nil =>
        simp only [List.cons_append, List.nil_append, List.cons.injEq] at hV
        obtain ⟨h1, h2, _⟩ := hV
        subst h1 h2
        exact ⟨hleft, hVt⟩
      | cons w V3 =>
        simp only [List.cons_append, List.cons.injEq] at hV
        obtain ⟨h1, h2, _⟩ := hV
        subst h1 h2
        exact ⟨hleft, hVt⟩
  · rw [hs1]; simp

/-- In exact arithmetic, on every input on which the loop ends, the final
stack satisfies the structural invariant for the whole of `points_`. -/
theorem RunStackExact_inv (g : Int) (points_ s : List Point)
    (h : RunStackExact g points_ = Except.ok s) :
    ∃ p0 p1 p2 rest, points_ = p0 :: p1 :: p2 :: rest ∧ StackInv p0 p1 points_ s := by
  unfold RunStackExact RunStackWith at h
  match points_, h with
  | p0 :: p1 :: p2 :: rest, h =>
    simp only at h
    refine ⟨p0, p1, p2, rest, rfl, ?_⟩
    have hinit : StackInv p0 p1 [p0, p1, p2] [p2, p1, p0] :=
      ⟨[p2], rfl, by simp, by simp, trivial, rfl⟩
    have := scanLoop_invariant Turn (Point.sub g) (fun done _ s => StackInv p0 p1 done s)
      (fun done cur _ s s1 hi hs => StackInv_step g p0 p1 done cur s s1 hi hs)
      rest [p0, p1, p2] [p2, p1, p0] s hinit h
    simpa using this

/-! ### Closure, pivot and size of the returned hull -/

/-- C4: on every input with `N ≥ 3` points (in any order) on which `Run`
returns a hull, every id of the hull is the id of some element of `points_`,
and if the ids of `points_` are pairwise distinct, no id appears twice. -/
theorem Run_hull_ids_from_input (g : Int) (points_ : List Point) (hull : List Int)
    (_hN : 3 ≤ points_.length) (h : Run g points_ = Except.ok hull) :
    (∀ i ∈ hull, ∃ p ∈ points_, p.id = i) ∧
    ((points_.map Point.id).Nodup → hull.Nodup) := by
  obtain ⟨s, hs, hh⟩ := (Run_ok_iff g points_ hull).1 h
  obtain ⟨p0, p1, p2, rest, _, U, _, _, hsub, _⟩ := RunStack_shape g points_ s hs
  have hsub2 : hull.reverse.Sublist (points_.map Point.id) := by
    rw [hh, ← List.map_reverse]
    exact List.Sublist.map _ hsub
  constructor
  · intro i hi
    have : i ∈ points_.map Point.id := hsub2.subset (List.mem_reverse.2 hi)
    obtain ⟨p, hp, hpi⟩ := List.mem_map.1 this
    exact ⟨p, hp, hpi⟩
  · intro hnd
    exact List.nodup_reverse.1 (hnd.sublist hsub2)

theorem Run_hull_ids_from_input_witness :
    3 ≤ squareWithInterior.length ∧
    Run 0 squareWithInterior = Except.ok [1, 2, 3, 0] ∧
    ((∀ i ∈ [1, 2, 3, 0], ∃ p ∈ squareWithInterior, p.id = i) ∧
      ((squareWithInterior.map Point.id).Nodup → ([1, 2, 3, 0] : List Int).Nodup)) :=
  ⟨by decide, rfl, Run_hull_ids_from_input 0 squareWithInterior [1, 2, 3, 0] (by decide) rfl⟩

/-- C5: on every input with `N ≥ 3` points on which `Run` returns a hull, the
id of `points_[0]` (pushed first) appears in the hull and is its final element. -/
theorem Run_hull_ends_with_pivot (g : Int) (points_ : List Point) (hull : List Int)
    (_hN : 3 ≤ points_.length) (h : Run g points_ = Except.ok hull) :
    ∃ p0, points_.head? = some p0 ∧ p0.id ∈ hull ∧ hull.getLast? = some p0.id := by
  obtain ⟨s, hs, hh⟩ := (Run_ok_iff g points_ hull).1 h
  obtain ⟨p0, p1, p2, rest, hp, U, hU, _, _, _⟩ := RunStack_shape g points_ s hs
  refine ⟨p0, by rw [hp]; rfl, ?_, ?_⟩
  · rw [hh, hU]; simp
  · rw [hh, hU]; simp

theorem Run_hull_ends_with_pivot_witness :
    3 ≤ squarePoints.length ∧ Run 0 squarePoints = Except.ok [1, 2, 3, 0] ∧
    ∃ p0, squarePoints.head? = some p0 ∧ p0.id ∈ ([1, 2, 3, 0] : List Int) ∧
      ([1, 2, 3, 0] : List Int).getLast? = some p0.id :=
  ⟨by decide, rfl, Run_hull_ends_with_pivot 0 squarePoints [1, 2, 3, 0] (by decide) rfl⟩

/-- C6: on every input with `N ≥ 3` points on which `Run` returns a hull, the
length of the hull is at least 3 and at most `N`. -/
theorem Run_hull_length_bounds (g : Int) (points_ : List Point) (hull : List Int)
    (_hN : 3 ≤ points_.length) (h : Run g points_ = Except.ok hull) :
    3 ≤ hull.length ∧ hull.length ≤ points_.length := by
  obtain ⟨s, hs, hh⟩ := (Run_ok_iff g points_ hull).1 h
  obtain ⟨p0, p1, p2, rest, _, U, hU, hne, hsub, _⟩ := RunStack_shape g points_ s hs
  constructor
  · rw [hh, hU]
    cases U with
    | nil => exact absurd rfl hne
    | cons u U2 => simp
  · have := hsub.length_le
    rw [hh]
    simpa using this

theorem Run_hull_length_bounds_witness :
    3 ≤ squareWithInteriorSwapped.length ∧
    Run 0 squareWithInteriorSwapped = Except.ok [1, 2, 3, 0] ∧
    (3 ≤ ([1, 2, 3, 0] : List Int).length ∧
      ([1, 2, 3, 0] : List Int).length ≤ squareWithInteriorSwapped.length) :=
  ⟨by decide, rfl,
    Run_hull_length_bounds 0 squareWithInteriorSwapped [1, 2, 3, 0] (by decide) rfl⟩

/-! ### Degenerate inputs -/

/-- C10 (counterexample): on four identical points `(5, 7)` the scan pops the
whole stack and evaluates `s.top()` on the empty stack.  `Run` has no guard
there: its behaviour is undefined, and the failure `HullDegenerateError` is not
reported. -/
theorem Run_reports_no_failure_on_identical_points :
    4 ≤ fourIdentical.length ∧
    (∀ p ∈ fourIdentical, p.x = 5 ∧ p.y = 7) ∧
    (∀ g, Run g fourIdentical = Except.error UndefinedBehaviour.topOfEmptyStack) ∧
    (∀ g, reported (Run g fourIdentical) ≠ some SpecResult.hullDegenerateError) :=
  ⟨by decide, by decide, fun _ => rfl, fun _ h =>
    Option.noConfusion (h : (none : Option SpecResult) = some SpecResult.hullDegenerateError)⟩

/-- C10 (amended): on every input with `N ≥ 4` points, in any order, in which
every `Turn` between differences of input points is `NONE` (all points
collinear, in particular all identical), the execution of `Run` does not reach
its `return`: the first iteration of the scan pops the whole stack and
evaluates `s.top()` on the empty stack, where the behaviour of `Run` is
undefined; no failure is reported. -/
theorem Run_collinear_underflows (g : Int) (points_ : List Point)
    (hN : 4 ≤ points_.length)
    (hcol : ∀ a ∈ points_, ∀ b ∈ points_, ∀ c ∈ points_,
      Turn32 (Point.sub32 g b a) (Point.sub32 g c a) = TurnDir.NONE) :
    Run g points_ = Except.error UndefinedBehaviour.topOfEmptyStack ∧
    reported (Run g points_) = none := by
  have key : Run g points_ = Except.error UndefinedBehaviour.topOfEmptyStack := by
    match points_, hN, hcol with
    | p0 :: p1 :: p2 :: p3 :: rest, _, hcol =>
      have h1 : Turn32 (Point.sub32 g p2 p1) (Point.sub32 g p3 p1) = TurnDir.NONE :=
        hcol p1 (by simp) p2 (by simp) p3 (by simp)
      have h2 : Turn32 (Point.sub32 g p1 p0) (Point.sub32 g p3 p0) = TurnDir.NONE :=
        hcol p0 (by simp) p1 (by simp) p3 (by simp)
      simp [Run, RunWith, RunStackWith, scanLoop, scanStep, scanWhile, h1, h2]
  refine ⟨key, ?_⟩
  rw [key]
  rfl

theorem Run_collinear_underflows_witness :
    4 ≤ fourIdentical.length ∧
    (∀ a ∈ fourIdentical, ∀ b ∈ fourIdentical, ∀ c ∈ fourIdentical,
      Turn32 (Point.sub32 0 b a) (Point.sub32 0 c a) = TurnDir.NONE) ∧
    (Run 0 fourIdentical = Except.error UndefinedBehaviour.topOfEmptyStack ∧
      reported (Run 0 fourIdentical) = none) :=
  ⟨by decide, by decide,
    Run_collinear_underflows 0 fourIdentical (by decide) (by decide)⟩

/-- C8 (the code at the failing input): for the prepared points `(0,0)#0`,
`(2,0)#2`, `(4,0)#1`, `(2,4)#3` (ties by increasing distance from the pivot, as
the specification asks) `Run` returns `[3, 1, 2, 0]`: id 2, the midpoint of the
hull edge from `(0,0)` to `(4,0)`, is in the hull. -/
theorem Run_keeps_edge_midpoint :
    (triangleWithEdgePoint.tail.Pairwise
      (fun a b => 0 < cross a b ∨ (cross a b = 0 ∧ distSq a < distSq b))) ∧
    (∀ g, Run g triangleWithEdgePoint = Except.ok [3, 1, 2, 0]) ∧
    (2 : Int) ∈ ([3, 1, 2, 0] : List Int) ∧
    turnArea ⟨0, 0, 0⟩ ⟨4, 0, 1⟩ ⟨2, 0, 2⟩ = 0 :=
  ⟨by decide, fun _ => rfl, by decide, by decide⟩

/-- C9 (counterexample): two inputs with `N ≥ 4` points, the pivot first and at
the origin, the other points in the upper half-plane by non-decreasing polar
angle with equal angles by increasing distance, not all collinear, on which
`Run` pops the whole stack and evaluates `s.top()` on the empty stack.
On `(0,0)`, `(1,0)`, `(2,0)`, `(3,0)`, `(0,1)` nothing overflows, and
`points_[3]` is collinear with `points_[0]` and `points_[1]`.
On the square of side `50000` the angles increase strictly, and the products
of `XProduct` overflow 32 bits. -/
theorem Run_underflows_on_prepared_input :
    (4 ≤ rayThenCorner.length ∧
    rayThenCorner.head? = some ⟨0, 0, 0⟩ ∧
    (∀ q ∈ rayThenCorner.tail, 0 < q.y ∨ (q.y = 0 ∧ 0 < q.x)) ∧
    (rayThenCorner.tail.Pairwise
      (fun a b => 0 < cross a b ∨ (cross a b = 0 ∧ distSq a < distSq b))) ∧
    (∃ a ∈ rayThenCorner, ∃ b ∈ rayThenCorner, ∃ c ∈ rayThenCorner, turnArea a b c ≠ 0) ∧
    NoOverflow32 rayThenCorner ∧
    Run 0 rayThenCorner = Except.error UndefinedBehaviour.topOfEmptyStack) ∧
    (4 ≤ overflowSquare.length ∧
    overflowSquare.head? = some ⟨0, 0, 0⟩ ∧
    (∀ q ∈ overflowSquare.tail, 0 < q.y ∨ (q.y = 0 ∧ 0 < q.x)) ∧
    (overflowSquare.tail.Pairwise
      (fun a b => 0 < cross a b ∨ (cross a b = 0 ∧ distSq a < distSq b))) ∧
    (∃ a ∈ overflowSquare, ∃ b ∈ overflowSquare, ∃ c ∈ overflowSquare,
      turnArea a b c ≠ 0) ∧
    0 < cross ⟨50000, 0, 1⟩ ⟨0, 50000, 3⟩ ∧
    Run 0 overflowSquare = Except.error UndefinedBehaviour.topOfEmptyStack) := by
  refine ⟨⟨by decide, by decide, by decide, by decide, by decide, by decide, rfl⟩,
    by decide, by decide, by decide, by decide, by decide, by decide, ?_⟩
  unfold Run
  rw [Turn32_fun_eq]
  rfl

/-! ### Totality -/

theorem turnArea_origin {p0 : Point} (hx : p0.x = 0) (hy : p0.y = 0) (a b : Point) :
    turnArea p0 a b = cross a b := by
  unfold turnArea cross
  rw [hx, hy]
  ring

/-- In exact arithmetic, with the pivot at the origin, the loop does not
underflow when every point from `points_[3]` on is strictly to the left of the
ray through `points_[1]`. -/
theorem RunStackExact_total (g : Int) (p0 p1 p2 : Point) (rest : List Point)
    (hx : p0.x = 0) (hy : p0.y = 0) (h : ∀ c ∈ rest, 0 < cross p1 c) :
    ∃ s, RunStackExact g (p0 :: p1 :: p2 :: rest) = Except.ok s := by
  have hinit : StackInv p0 p1 [p0, p1, p2] [p2, p1, p0] ∧ ∀ c ∈ rest, 0 < cross p1 c :=
    ⟨⟨[p2], rfl, by simp, by simp, trivial, rfl⟩, h⟩
  exact scanLoop_total Turn (Point.sub g)
    (fun done todo s => StackInv p0 p1 done s ∧ ∀ c ∈ todo, 0 < cross p1 c)
    (fun done cur todo s s1 hi hs =>
      ⟨StackInv_step g p0 p1 done cur s s1 hi.1 hs,
        fun c hc => hi.2 c (List.mem_cons_of_mem _ hc)⟩)
    (fun done cur todo s hi => by
      obtain ⟨⟨U, hU, _⟩, hc⟩ := hi
      have hleft : 0 < turnArea p0 p1 cur := by
        rw [turnArea_origin hx hy]
        exact hc cur (List.mem_cons_self _ _)
      exact scanStep_progress g cur s U p1 p0 [] hU hleft)
    rest [p0, p1, p2] [p2, p1, p0] hinit

/-- Strict order of polar angles is transitive in the upper half-plane: if `b`
is strictly to the left of `a` and `c` is not to the right of `b` nor of `a`,
then `c` is strictly to the left of `a`. -/
theorem cross_pos_trans {a b c : Point} (ha : UpperHalf a) (hc : UpperHalf c)
    (hab : 0 < cross a b) (hbc : 0 ≤ cross b c) (hac : 0 ≤ cross a c) :
    0 < cross a c := by
  rcases lt_or_eq_of_le hac with h | h
  · exact h
  · exfalso
    unfold cross at hab hbc h
    unfold UpperHalf at ha hc
    have idy : (a.x * b.y - a.y * b.x) * c.y + (b.x * c.y - b.y * c.x) * a.y = 0 := by
      linear_combination (-b.y) * h
    have idx : (a.x * b.y - a.y * b.x) * c.x + (b.x * c.y - b.y * c.x) * a.x = 0 := by
      linear_combination (-b.x) * h
    have hay : 0 ≤ a.y := by rcases ha with h1 | h1 <;> omega
    have hcy : 0 ≤ c.y := by rcases hc with h1 | h1 <;> omega
    have t1 : 0 ≤ (a.x * b.y - a.y * b.x) * c.y := mul_nonneg (le_of_lt hab) hcy
    have t2 : 0 ≤ (b.x * c.y - b.y * c.x) * a.y := mul_nonneg hbc hay
    have t1z : (a.x * b.y - a.y * b.x) * c.y = 0 := by omega
    have t2z : (b.x * c.y - b.y * c.x) * a.y = 0 := by omega
    have hcy0 : c.y = 0 := by
      rcases mul_eq_zero.1 t1z with h1 | h1
      · omega
      · exact h1
    have hcx : 0 < c.x := by rcases hc with h1 | h1 <;> omega
    have t3 : 0 < (a.x * b.y - a.y * b.x) * c.x := mul_pos hab hcx
    have t4 : (b.x * c.y - b.y * c.x) * a.x < 0 := by omega
    have hbc0 : b.x * c.y - b.y * c.x ≠ 0 := by
      intro h0
      rw [h0] at t4
      simp at t4
    have hay0 : a.y = 0 := by
      rcases mul_eq_zero.1 t2z with h1 | h1
      · exact absurd h1 hbc0
      · exact h1
    have hax : 0 < a.x := by rcases ha with h1 | h1 <;> omega
    have hbcpos : 0 < b.x * c.y - b.y * c.x := lt_of_le_of_ne hbc (Ne.symm hbc0)
    have t5 : 0 < (b.x * c.y - b.y * c.x) * a.x := mul_pos hbcpos hax
    omega

/-- C9 (amended): with `N ≥ 4` points, the pivot first and at the origin, the
other points in the upper half-plane by non-decreasing polar angle (in any
order of the ties), `points_[3]` strictly to the left of the ray through
`points_[1]`, and no overflow (no difference of two input points and no cross
product of two such differences leaves the range of a 32-bit `int`), `Run` is
total: the stack never underflows and a hull is returned. -/
theorem Run_total_of_sorted (g : Int) (p0 p1 p2 p3 : Point) (rest : List Point)
    (hx : p0.x = 0) (hy : p0.y = 0)
    (hH : ∀ q ∈ p1 :: p2 :: p3 :: rest, UpperHalf q)
    (hS : (p1 :: p2 :: p3 :: rest).Pairwise (fun a b => 0 ≤ cross a b))
    (h13 : 0 < cross p1 p3)
    (hno : NoOverflow32 (p0 :: p1 :: p2 :: p3 :: rest)) :
    ∃ hull, Run g (p0 :: p1 :: p2 :: p3 :: rest) = Except.ok hull := by
  have hall : ∀ c ∈ p3 :: rest, 0 < cross p1 c := by
    intro c hc
    rcases List.mem_cons.1 hc with h | h
    · rw [h]; exact h13
    · simp only [List.pairwise_cons] at hS
      obtain ⟨h1, _, h3, _⟩ := hS
      exact cross_pos_trans (hH p1 (by simp)) (hH c (by simp [h])) h13 (h3 c h)
        (h1 c (by simp [h]))
  obtain ⟨s, hs⟩ := RunStackExact_total g p0 p1 p2 (p3 :: rest) hx hy hall
  rw [Run_eq_exact g _ hno]
  exact ⟨s.map Point.id, (RunExact_ok_iff g _ _).2 ⟨s, hs, rfl⟩⟩

theorem Run_total_of_sorted_witness :
    (∀ q ∈ squareWithInterior.tail, UpperHalf q) ∧
    (squareWithInterior.tail.Pairwise (fun a b => 0 ≤ cross a b)) ∧
    0 < cross ⟨2, 0, 3⟩ ⟨2, 2, 2⟩ ∧
    NoOverflow32 squareWithInterior ∧
    ∃ hull, Run 0 squareWithInterior = Except.ok hull :=
  ⟨by decide, by decide, by decide, by decide,
    Run_total_of_sorted 0 ⟨0, 0, 0⟩ ⟨2, 0, 3⟩ ⟨1, 1, 4⟩ ⟨2, 2, 2⟩ [⟨0, 2, 1⟩] rfl rfl
      (by decide) (by decide) (by decide) (by decide)⟩

/-! ### Convexity of the returned hull -/

theorem Turn_sub_right_iff (g : Int) (a b c : Point) :
    Turn (Point.sub g b a) (Point.sub g c a) = TurnDir.RIGHT ↔ turnArea a b c < 0 := by
  rw [Turn_right_iff, cross_sub]

theorem turnArea_swap (a b c : Point) : turnArea c b a = -turnArea a b c := by
  unfold turnArea; ring

theorem turnArea_rotate (a b c : Point) : turnArea b c a = turnArea a b c := by
  unfold turnArea; ring

theorem cross_swap (a b : Point) : cross b a = -cross a b := by
  unfold cross; ring

/-- The elements of the final stack above `points_[0]`, read bottom-to-top,
are a subsequence of `points_[1..]`. -/
theorem StackInv_upper_sublist {p0 p1 : Point} {rest s U : List Point}
    (hU : s = U ++ [p1, p0]) (hsub : s.reverse.Sublist (p0 :: rest)) :
    (p1 :: U.reverse).Sublist rest := by
  rw [hU] at hsub
  have h : (U ++ [p1, p0]).reverse = p0 :: p1 :: U.reverse := by simp
  rw [h] at hsub
  exact List.cons_sublist_cons.1 hsub

/-- In the returned (top-to-bottom) order the triples of the stack that do
not wrap around are right turns. -/
theorem AllTriples_right_of_StrictTurns (g : Int) (p0 p1 : Point)
    (hx : p0.x = 0) (hy : p0.y = 0) (T : List Point) :
    ∀ U : List Point, (∀ x ∈ U, 0 < cross p1 x) → StrictTurns (U ++ [p1]) →
      AllTriples (fun a b c => Turn (Point.sub g b a) (Point.sub g c a) = TurnDir.RIGHT)
        ([p1, p0] ++ T) →
      AllTriples (fun a b c => Turn (Point.sub g b a) (Point.sub g c a) = TurnDir.RIGHT)
        (U ++ ([p1, p0] ++ T)) := by
  intro U
  induction U with
  | nil => intro _ _ h; exact h
  | cons x U2 ih =>
    intro hpos hturn hbase
    have hrec := ih (fun y hy2 => hpos y (List.mem_cons_of_mem _ hy2))
      (StrictTurns_tail hturn) hbase
    cases U2 with
    | nil =>
      refine ⟨?_, hbase⟩
      show Turn _ _ = TurnDir.RIGHT
      rw [Turn_sub_right_iff, turnArea_rotate, turnArea_origin hx hy, cross_swap]
      have := hpos x (List.mem_cons_self _ _)
      omega
    | cons y U3 =>
      cases U3 with
      | nil =>
        refine ⟨?_, hrec⟩
        show Turn _ _ = TurnDir.RIGHT
        rw [Turn_sub_right_iff, turnArea_swap]
        have := hturn.1
        omega
      | cons z U4 =>
        refine ⟨?_, hrec⟩
        show Turn _ _ = TurnDir.RIGHT
        rw [Turn_sub_right_iff, turnArea_swap]
        have := hturn.1
        omega

theorem turnArea_origin_mid {p0 : Point} (hx : p0.x = 0) (hy : p0.y = 0) (t r : Point) :
    turnArea t p0 r = cross r t := by
  unfold turnArea cross
  rw [hx, hy]
  ring

theorem AllTriples_imp {P Q : Point → Point → Point → Prop}
    (hPQ : ∀ a b c, P a b c → Q a b c) :
    ∀ (L : List Point), AllTriples P L → AllTriples Q L := by
  intro L
  induction L with
  | nil => intro _; trivial
  | cons a L ih =>
    intro h
    cases L with
    | nil => trivial
    | cons b L2 =>
      cases L2 with
      | nil => trivial
      | cons c L3 => exact ⟨hPQ a b c h.1, ih h.2⟩

theorem AllTriples_snoc {P : Point → Point → Point → Prop} (a b c : Point)
    (hP : P a b c) :
    ∀ (L : List Point), AllTriples P (L ++ [a, b]) → AllTriples P (L ++ [a, b, c]) := by
  intro L
  induction L with
  | nil => intro _; exact ⟨hP, trivial⟩
  | cons x L ih =>
    intro h
    cases L with
    | nil => exact ⟨h.1, hP, trivial⟩
    | cons y L2 =>
      cases L2 with
      | nil => exact ⟨h.1, ih h.2⟩
      | cons z L3 => exact ⟨h.1, ih h.2⟩

/-- A stack whose triples turn left, read bottom-to-top. -/
theorem StrictTurns_reverse :
    ∀ (L : List Point), StrictTurns L →
      AllTriples (fun a b c => 0 < turnArea a b c) L.reverse := by
  intro L
  induction L with
  | nil => intro _; trivial
  | cons c L ih =>
    intro h
    cases L with
    | nil => trivial
    | cons b L2 =>
      cases L2 with
      | nil => trivial
      | cons a L3 =>
        have h1 := ih h.2
        have e1 : (b :: a :: L3).reverse = L3.reverse ++ [a, b] := by simp
        have e2 : (c :: b :: a :: L3).reverse = L3.reverse ++ [a, b, c] := by simp
        rw [e1] at h1
        rw [e2]
        exact AllTriples_snoc a b c h.1 _ h1

theorem turnArea_origin_right {p0 : Point} (hx : p0.x = 0) (hy : p0.y = 0) (a b : Point) :
    turnArea a b p0 = cross a b := by
  unfold turnArea cross
  rw [hx, hy]
  ring

/-- In push (bottom-to-top) order the triples of the final stack, wrapping
around, are left turns. -/
theorem AllCyclicTriples_left_of_StrictTurns (p0 p1 : Point)
    (hx : p0.x = 0) (hy : p0.y = 0) (U : List Point) (hne : U ≠ [])
    (hp1 : ∀ x ∈ U, 0 < cross p1 x)
    (hUU : U.Pairwise (fun a b => 0 < cross b a))
    (hturn : StrictTurns (U ++ [p1])) :
    AllCyclicTriples (fun a b c => 0 < turnArea a b c) (U ++ [p1, p0]).reverse := by
  have hchain := StrictTurns_reverse _ hturn
  unfold AllCyclicTriples
  have e0 : (U ++ [p1, p0]).reverse ++ ((U ++ [p1, p0]).reverse).take 2 =
      p0 :: ((U ++ [p1]).reverse ++ [p0, p1]) := by simp
  rw [e0]
  have hbody : AllTriples (fun a b c => 0 < turnArea a b c)
      ((U ++ [p1]).reverse ++ [p0, p1]) := by
    cases U with
    | nil => exact absurd rfl hne
    | cons u U2 =>
      have hu : 0 < cross p1 u := hp1 u (List.mem_cons_self _ _)
      have hlast : 0 < turnArea u p0 p1 := by
        rw [turnArea_origin_mid hx hy]; exact hu
      cases U2 with
      | nil =>
        have e1 : ([u] ++ [p1]).reverse = [] ++ [p1, u] := by simp
        rw [e1] at hchain ⊢
        have h1 := AllTriples_snoc p1 u p0 (by rw [turnArea_origin_right hx hy]; exact hu)
          [] hchain
        have h2 := AllTriples_snoc u p0 p1 hlast [p1] h1
        simpa using h2
      | cons v U3 =>
        have hv : 0 < cross v u := by
          simp only [List.pairwise_cons] at hUU
          exact hUU.1 v (List.mem_cons_self _ _)
        have e1 : ((u :: v :: U3) ++ [p1]).reverse = (p1 :: U3.reverse) ++ [v, u] := by simp
        rw [e1] at hchain ⊢
        have h1 := AllTriples_snoc v u p0 (by rw [turnArea_origin_right hx hy]; exact hv)
          _ hchain
        have e2 : (p1 :: U3.reverse) ++ [v, u, p0] = (p1 :: U3.reverse ++ [v]) ++ [u, p0] := by
          simp
        rw [e2] at h1
        have h2 := AllTriples_snoc u p0 p1 hlast _ h1
        simpa using h2
  -- the first triple: pivot, points_[1], the element above it
  have e3 : (U ++ [p1]).reverse = p1 :: U.reverse := by simp
  rw [e3] at hbody ⊢
  cases hr : U.reverse with
  | nil =>
    have : U = [] := by simpa using hr
    exact absurd this hne
  | cons x1 R =>
    rw [hr] at hbody
    refine ⟨?_, hbody⟩
    show 0 < turnArea p0 p1 x1
    rw [turnArea_origin hx hy]
    apply hp1
    have : x1 ∈ U.reverse := by rw [hr]; simp
    exact List.mem_reverse.1 this

/-- In exact arithmetic, for every input with `N ≥ 4` points whose first point
is the pivot at the origin and whose other points are in strictly increasing
polar angle, the loop ends with a stack in which every three consecutive
elements, wrapping from the last to the first, turn right in top-to-bottom
order and left in push order. -/
theorem RunStackExact_turns (g : Int) (p0 : Point) (rest : List Point)
    (hN : 4 ≤ (p0 :: rest).length) (hx : p0.x = 0) (hy : p0.y = 0)
    (hS : rest.Pairwise (fun a b => 0 < cross a b)) :
    ∃ s, RunStackExact g (p0 :: rest) = Except.ok s ∧
      AllCyclicTriples
        (fun a b c => Turn (Point.sub g b a) (Point.sub g c a) = TurnDir.RIGHT) s ∧
      AllCyclicTriples
        (fun a b c => Turn (Point.sub g b a) (Point.sub g c a) = TurnDir.LEFT) s.reverse := by
  match rest, hN, hS with
  | p1 :: p2 :: rest2, _, hS =>
    have hS1 := hS
    simp only [List.pairwise_cons] at hS1
    obtain ⟨h1, _, _⟩ := hS1
    obtain ⟨s, hs⟩ := RunStackExact_total g p0 p1 p2 rest2 hx hy
      (fun c hc => h1 c (List.mem_cons_of_mem _ hc))
    obtain ⟨q0, q1, q2, r2, hq, U, hU, hne, hsub, hturn, _⟩ := RunStackExact_inv g _ s hs
    simp only [List.cons.injEq] at hq
    obtain ⟨e0, e1, _, _⟩ := hq
    subst e0 e1
    have hup : (p1 :: U.reverse).Pairwise (fun a b => 0 < cross a b) :=
      hS.sublist (StackInv_upper_sublist hU hsub)
    simp only [List.pairwise_cons, List.mem_reverse, List.pairwise_reverse] at hup
    obtain ⟨hp1, hUU⟩ := hup
    have hpush : AllCyclicTriples
        (fun a b c => Turn (Point.sub g b a) (Point.sub g c a) = TurnDir.LEFT) s.reverse := by
      rw [hU]
      exact AllTriples_imp (fun a b c h => (Turn_sub_left_iff g a b c).2 h) _
        (AllCyclicTriples_left_of_StrictTurns p0 p1 hx hy U hne hp1 hUU hturn)
    refine ⟨s, hs, ?_, hpush⟩
    have key := AllTriples_right_of_StrictTurns g p0 p1 hx hy
    unfold AllCyclicTriples
    cases U with
    | nil => exact absurd rfl hne
    | cons u U2 =>
      have hu : 0 < cross p1 u := hp1 u (List.mem_cons_self _ _)
      have hwrap : ∀ w, 0 < cross w u →
          AllTriples (fun a b c => Turn (Point.sub g b a) (Point.sub g c a) = TurnDir.RIGHT)
            ([p1, p0] ++ [u, w]) := by
        intro w hw
        refine ⟨?_, ?_, trivial⟩
        · show Turn _ _ = TurnDir.RIGHT
          rw [Turn_sub_right_iff, ← turnArea_rotate p1 p0 u, turnArea_origin hx hy, cross_swap]
          omega
        · show Turn _ _ = TurnDir.RIGHT
          rw [Turn_sub_right_iff, turnArea_origin hx hy, cross_swap]
          omega
      cases U2 with
      | nil =>
        have := key [u, p1] [u] hp1 hturn (hwrap p1 hu)
        rw [hU]
        simpa using this
      | cons v U3 =>
        have hv : 0 < cross v u := by
          simp only [List.pairwise_cons] at hUU
          exact hUU.1 v (List.mem_cons_self _ _)
        have := key [u, v] (u :: v :: U3) hp1 hturn (hwrap v hv)
        rw [hU]
        simpa using this

theorem AllTriples_imp_mem {P Q : Point → Point → Point → Prop} (S : List Point)
    (hPQ : ∀ a ∈ S, ∀ b ∈ S, ∀ c ∈ S, P a b c → Q a b c) :
    ∀ (L : List Point), (∀ x ∈ L, x ∈ S) → AllTriples P L → AllTriples Q L := by
  intro L
  induction L with
  | nil => intro _ _; trivial
  | cons a L ih =>
    intro hm h
    cases L with
    | nil => trivial
    | cons b L2 =>
      cases L2 with
      | nil => trivial
      | cons c L3 =>
        exact ⟨hPQ a (hm a (by simp)) b (hm b (by simp)) c (hm c (by simp)) h.1,
          ih (fun x hx => hm x (List.mem_cons_of_mem _ hx)) h.2⟩

/-- C3 (counterexample): the input `(0,0)#0`, `(60000,0)#1`, `(10000,1000)#2`,
`(0,60000)#3` has its pivot first and at the origin and its other points in
strictly increasing polar angle.  The 32-bit product `-50000 * 60000` wraps,
`Run` keeps `(10000,1000)` and returns `[3, 2, 1, 0]`.  Traversed in order and
wrapping, the consecutive triples of this hull do not all give the same
answer of `Turn`, neither in 32-bit arithmetic nor in exact arithmetic. -/
theorem Run_hull_turns_mixed_on_overflow :
    4 ≤ wideTriangle.length ∧
    wideTriangle.head? = some ⟨0, 0, 0⟩ ∧
    (∀ q ∈ wideTriangle.tail, UpperHalf q) ∧
    wideTriangle.tail.Pairwise (fun a b => 0 < cross a b) ∧
    RunStack 0 wideTriangle =
      Except.ok [⟨0, 60000, 3⟩, ⟨10000, 1000, 2⟩, ⟨60000, 0, 1⟩, ⟨0, 0, 0⟩] ∧
    Run 0 wideTriangle = Except.ok [3, 2, 1, 0] ∧
    (∀ d, ¬ AllCyclicTriples
      (fun a b c => Turn32 (Point.sub32 0 b a) (Point.sub32 0 c a) = d)
      [⟨0, 60000, 3⟩, ⟨10000, 1000, 2⟩, ⟨60000, 0, 1⟩, ⟨0, 0, 0⟩]) ∧
    (∀ d, ¬ AllCyclicTriples
      (fun a b c => Turn (Point.sub 0 b a) (Point.sub 0 c a) = d)
      [⟨0, 60000, 3⟩, ⟨10000, 1000, 2⟩, ⟨60000, 0, 1⟩, ⟨0, 0, 0⟩]) := by
  refine ⟨by decide, by decide, by decide, by decide, ?_, ?_, ?_, ?_⟩
  · unfold RunStack
    rw [Turn32_fun_eq]
    rfl
  · unfold Run
    rw [Turn32_fun_eq]
    rfl
  · intro d h
    have e1 : Turn32 (Point.sub32 0 ⟨60000, 0, 1⟩ ⟨10000, 1000, 2⟩)
        (Point.sub32 0 ⟨0, 0, 0⟩ ⟨10000, 1000, 2⟩) = TurnDir.RIGHT := by
      rw [Turn32_eq]; decide
    have e2 : Turn32 (Point.sub32 0 ⟨0, 0, 0⟩ ⟨60000, 0, 1⟩)
        (Point.sub32 0 ⟨0, 60000, 3⟩ ⟨60000, 0, 1⟩) = TurnDir.LEFT := by
      rw [Turn32_eq]; decide
    obtain ⟨_, h1, h2, _⟩ := h
    have h1b : TurnDir.RIGHT = d := e1.symm.trans h1
    have h2b : TurnDir.LEFT = d := e2.symm.trans h2
    rw [← h1b] at h2b
    exact absurd h2b (by decide)
  · intro d h
    have e0 : Turn (Point.sub 0 ⟨10000, 1000, 2⟩ ⟨0, 60000, 3⟩)
        (Point.sub 0 ⟨60000, 0, 1⟩ ⟨0, 60000, 3⟩) = TurnDir.LEFT :=
      (Turn_left_iff _ _).2 (by decide)
    have e1 : Turn (Point.sub 0 ⟨60000, 0, 1⟩ ⟨10000, 1000, 2⟩)
        (Point.sub 0 ⟨0, 0, 0⟩ ⟨10000, 1000, 2⟩) = TurnDir.RIGHT :=
      (Turn_right_iff _ _).2 (by decide)
    obtain ⟨h0, h1, _⟩ := h
    have h0b : TurnDir.LEFT = d := e0.symm.trans h0
    have h1b : TurnDir.RIGHT = d := e1.symm.trans h1
    rw [← h0b] at h1b
    exact absurd h1b (by decide)

/-- C3 (amended): for every input with `N ≥ 4` points whose first point is the
pivot at the origin, whose other points are in strictly increasing polar angle
(`cross(points_[i], points_[j]) > 0` for `1 ≤ i < j`) and on which nothing
overflows (no difference of two input points and no cross product of two such
differences leaves the range of a 32-bit `int`), `Run` returns a hull (the ids
of the final stack, top to bottom) of at least three vertices in which every
three consecutive vertices, wrapping from the last to the first, give
`Turn = RIGHT`: the same orientation throughout, clockwise in the returned
order, none collinear; equivalently every such triple gives `Turn = LEFT` in
push order. -/
theorem Run_hull_turns_clockwise (g : Int) (p0 : Point) (rest : List Point)
    (hN : 4 ≤ (p0 :: rest).length) (hx : p0.x = 0) (hy : p0.y = 0)
    (hS : rest.Pairwise (fun a b => 0 < cross a b))
    (hno : NoOverflow32 (p0 :: rest)) :
    ∃ s, RunStack g (p0 :: rest) = Except.ok s ∧
      Run g (p0 :: rest) = Except.ok (s.map Point.id) ∧
      3 ≤ s.length ∧
      AllCyclicTriples
        (fun a b c => Turn32 (Point.sub32 g b a) (Point.sub32 g c a) = TurnDir.RIGHT) s ∧
      AllCyclicTriples
        (fun a b c => Turn32 (Point.sub32 g b a) (Point.sub32 g c a) = TurnDir.LEFT)
        s.reverse := by
  obtain ⟨s, hs, hR, hL⟩ := RunStackExact_turns g p0 rest hN hx hy hS
  obtain ⟨q0, q1, q2, r2, _, U, hU, hne, hsub, _, _⟩ := RunStackExact_inv g _ s hs
  have hmem : ∀ x ∈ s, x ∈ p0 :: rest := fun x hx => hsub.subset (List.mem_reverse.2 hx)
  have hlen : 3 ≤ s.length := by
    rw [hU]
    cases U with
    | nil => exact absurd rfl hne
    | cons u U2 => simp
  have hs32 : RunStack g (p0 :: rest) = Except.ok s := by
    rw [RunStack_eq_exact g _ hno]; exact hs
  refine ⟨s, hs32, (Run_ok_iff g _ _).2 ⟨s, hs32, rfl⟩, hlen, ?_, ?_⟩
  · refine AllTriples_imp_mem (p0 :: rest) ?_ _ ?_ hR
    · intro a ha b hb c hc h
      show Turn32 _ _ = TurnDir.RIGHT
      rw [Turn32_sub32_eq g hno b hb a ha c hc]
      exact h
    · intro x hx
      rcases List.mem_append.1 hx with h | h
      · exact hmem x h
      · exact hmem x (List.mem_of_mem_take h)
  · refine AllTriples_imp_mem (p0 :: rest) ?_ _ ?_ hL
    · intro a ha b hb c hc h
      show Turn32 _ _ = TurnDir.LEFT
      rw [Turn32_sub32_eq g hno b hb a ha c hc]
      exact h
    · intro x hx
      rcases List.mem_append.1 hx with h | h
      · exact hmem x (List.mem_reverse.1 h)
      · exact hmem x (List.mem_reverse.1 (List.mem_of_mem_take h))

theorem Run_hull_turns_clockwise_witness :
    4 ≤ squarePoints.length ∧
    squarePoints.tail.Pairwise (fun a b => 0 < cross a b) ∧
    NoOverflow32 squarePoints ∧
    ∃ s, RunStack 0 squarePoints = Except.ok s ∧
      Run 0 squarePoints = Except.ok (s.map Point.id) ∧
      3 ≤ s.length ∧
      AllCyclicTriples
        (fun a b c => Turn32 (Point.sub32 0 b a) (Point.sub32 0 c a) = TurnDir.RIGHT) s ∧
      AllCyclicTriples
        (fun a b c => Turn32 (Point.sub32 0 b a) (Point.sub32 0 c a) = TurnDir.LEFT)
        s.reverse :=
  ⟨by decide, by decide, by decide,
    Run_hull_turns_clockwise 0 ⟨0, 0, 0⟩ [⟨2, 0, 3⟩, ⟨2, 2, 2⟩, ⟨0, 2, 1⟩]
      (by decide) rfl rfl (by decide) (by decide)⟩

/-! ### Geometry of one iteration -/

theorem new_edge_after_pop {a b c cur r : Point} (habc : 0 < turnArea a b c)
    (hpop : turnArea b c cur ≤ 0) (hleft : 0 < turnArea a b cur)
    (h1 : 0 ≤ turnArea a b r) (h2 : 0 ≤ turnArea b c r) : 0 ≤ turnArea b cur r := by
  have key : turnArea a b c * turnArea b cur r =
      (-turnArea b c cur) * turnArea a b r + turnArea a b cur * turnArea b c r := by
    unfold turnArea; ring
  have hrhs : 0 ≤ (-turnArea b c cur) * turnArea a b r + turnArea a b cur * turnArea b c r :=
    add_nonneg (mul_nonneg (by omega) h1) (mul_nonneg (le_of_lt hleft) h2)
  rw [← key] at hrhs
  exact nonneg_of_mul_nonneg_right hrhs habc

theorem new_edge_no_pop {a b cur r : Point} (hab : 0 < cross a b)
    (hleft : 0 < turnArea a b cur) (hbc : 0 ≤ cross b cur) (hrb : 0 ≤ cross r b)
    (h1 : 0 ≤ turnArea a b r) : 0 ≤ turnArea b cur r := by
  have key : cross a b * turnArea b cur r =
      turnArea a b cur * cross r b + cross b cur * turnArea a b r := by
    unfold turnArea cross; ring
  have hrhs : 0 ≤ turnArea a b cur * cross r b + cross b cur * turnArea a b r :=
    add_nonneg (mul_nonneg (le_of_lt hleft) hrb) (mul_nonneg hbc h1)
  rw [← key] at hrhs
  exact nonneg_of_mul_nonneg_right hrhs hab

theorem left_of_lower_edge {a b c q : Point} (hbc : 0 < cross b c)
    (habc : 0 ≤ turnArea a b c) (hbq : 0 ≤ cross b q) (hab : 0 ≤ cross a b)
    (h1 : 0 ≤ turnArea b c q) : 0 ≤ turnArea a b q := by
  have key : cross b c * turnArea a b q =
      turnArea a b c * cross b q + turnArea b c q * cross a b := by
    unfold turnArea cross; ring
  have hrhs : 0 ≤ turnArea a b c * cross b q + turnArea b c q * cross a b :=
    add_nonneg (mul_nonneg habc hbq) (mul_nonneg h1 hab)
  rw [← key] at hrhs
  exact nonneg_of_mul_nonneg_right hrhs hbc

theorem cross_pos_of_turns {a b c d : Point} (hb : UpperHalf b)
    (habc : 0 < turnArea a b c) (hbcd : 0 < turnArea b c d)
    (hab : 0 ≤ cross a b) (hbd : 0 ≤ cross b d) (hbc : 0 ≤ cross b c) : 0 < cross b c := by
  rcases lt_or_eq_of_le hbc with h | h
  · exact h
  · exfalso
    have key : cross b c * turnArea a b d =
        turnArea a b c * cross b d + turnArea b c d * cross a b := by
      unfold turnArea cross; ring
    rw [← h, zero_mul] at key
    have t1 : 0 ≤ turnArea a b c * cross b d := mul_nonneg (le_of_lt habc) hbd
    have t2 : 0 ≤ turnArea b c d * cross a b := mul_nonneg (le_of_lt hbcd) hab
    have z1 : turnArea a b c * cross b d = 0 := by omega
    have z2 : turnArea b c d * cross a b = 0 := by omega
    have hab0 : cross a b = 0 := by
      rcases mul_eq_zero.1 z2 with h1 | h1
      · omega
      · exact h1
    -- a, c are both parallel to b, so a b c are collinear with the origin
    have idx : cross a c * b.x = 0 := by
      have : cross a c * b.x = cross a b * c.x + cross b c * a.x := by
        unfold cross; ring
      rw [this, hab0, ← h]; ring
    have idy : cross a c * b.y = 0 := by
      have : cross a c * b.y = cross a b * c.y + cross b c * a.y := by
        unfold cross; ring
      rw [this, hab0, ← h]; ring
    have hac : cross a c = 0 := by
      unfold UpperHalf at hb
      rcases mul_eq_zero.1 idx with h1 | h1
      · exact h1
      · rcases mul_eq_zero.1 idy with h2 | h2
        · exact h2
        · omega
    have harea : turnArea a b c = cross a b + cross b c - cross a c := by
      unfold turnArea cross; ring
    rw [harea, hab0, ← h, hac] at habc
    omega

theorem cross_pos_of_pop {b c d cur : Point} (hbcd : 0 < turnArea b c d)
    (hpop : turnArea b c cur ≤ 0) (hcur : 0 < cross b cur) (hbd : 0 ≤ cross b d)
    (hbc : 0 ≤ cross b c) : 0 < cross b c := by
  rcases lt_or_eq_of_le hbc with h | h
  · exact h
  · exfalso
    have key : turnArea b c d * cross b cur - turnArea b c cur * cross b d =
        cross b c * (cross b cur - cross b d - cross d cur) := by
      unfold turnArea cross; ring
    rw [← h, zero_mul] at key
    have t1 : 0 < turnArea b c d * cross b cur := mul_pos hbcd hcur
    have t2 : 0 ≤ (-turnArea b c cur) * cross b d := mul_nonneg (by omega) hbd
    have t3 : (-turnArea b c cur) * cross b d = -(turnArea b c cur * cross b d) := by ring
    omega

theorem cross_pos_trans_right {a b c : Point} (ha : UpperHalf a) (hc : UpperHalf c)
    (hab : 0 ≤ cross a b) (hbc : 0 < cross b c) (hac : 0 ≤ cross a c) :
    0 < cross a c := by
  rcases lt_or_eq_of_le hac with h | h
  · exact h
  · exfalso
    unfold cross at hab hbc h
    unfold UpperHalf at ha hc
    have idy : (a.x * b.y - a.y * b.x) * c.y + (b.x * c.y - b.y * c.x) * a.y = 0 := by
      linear_combination (-b.y) * h
    have idx : (a.x * b.y - a.y * b.x) * c.x + (b.x * c.y - b.y * c.x) * a.x = 0 := by
      linear_combination (-b.x) * h
    have hay : 0 ≤ a.y := by rcases ha with h1 | h1 <;> omega
    have hcy : 0 ≤ c.y := by rcases hc with h1 | h1 <;> omega
    have t1 : 0 ≤ (a.x * b.y - a.y * b.x) * c.y := mul_nonneg hab hcy
    have t2 : 0 ≤ (b.x * c.y - b.y * c.x) * a.y := mul_nonneg (le_of_lt hbc) hay
    have t2z : (b.x * c.y - b.y * c.x) * a.y = 0 := by omega
    have t1z : (a.x * b.y - a.y * b.x) * c.y = 0 := by omega
    have hay0 : a.y = 0 := by
      rcases mul_eq_zero.1 t2z with h1 | h1
      · omega
      · exact h1
    have hax : 0 < a.x := by rcases ha with h1 | h1 <;> omega
    have t3 : 0 < (b.x * c.y - b.y * c.x) * a.x := mul_pos hbc hax
    have t4 : (a.x * b.y - a.y * b.x) * c.x < 0 := by omega
    have hab0 : a.x * b.y - a.y * b.x ≠ 0 := by
      intro h0
      rw [h0] at t4
      simp at t4
    have hcy0 : c.y = 0 := by
      rcases mul_eq_zero.1 t1z with h1 | h1
      · exact absurd h1 hab0
      · exact h1
    have hcx : 0 < c.x := by rcases hc with h1 | h1 <;> omega
    have habpos : 0 < a.x * b.y - a.y * b.x := lt_of_le_of_ne hab (Ne.symm hab0)
    have t5 : 0 < (a.x * b.y - a.y * b.x) * c.x := mul_pos habpos hcx
    omega

/-! ### Edges of the stack -/

theorem EdgesSupport_tail {P : List Point} {a : Point} {l : List Point}
    (h : EdgesSupport P (a :: l)) : EdgesSupport P l := by
  cases l with
  | nil => trivial
  | cons b l2 => exact h.2

theorem EdgesSupport_suffix {P : List Point} (A : List Point) {B : List Point}
    (h : EdgesSupport P (A ++ B)) : EdgesSupport P B := by
  induction A with
  | nil => exact h
  | cons a A ih => exact ih (EdgesSupport_tail h)

theorem EdgesSupport_points_append {P Q : List Point} :
    ∀ {l : List Point}, EdgesSupport P l → EdgesSupport Q l → EdgesSupport (P ++ Q) l := by
  intro l
  induction l with
  | nil => intro _ _; trivial
  | cons b l ih =>
    intro hP hQ
    cases l with
    | nil => trivial
    | cons a l2 =>
      refine ⟨?_, ih hP.2 hQ.2⟩
      intro r hr
      rcases List.mem_append.1 hr with h | h
      · exact hP.1 r h
      · exact hQ.1 r h

/-- Adding an element below the bottom of the stack. -/
theorem EdgesSupport_push_bottom {P : List Point} {x y : Point}
    (hxy : ∀ r ∈ P, 0 ≤ turnArea y x r) :
    ∀ {L : List Point}, EdgesSupport P (L ++ [x]) → EdgesSupport P (L ++ [x, y]) := by
  intro L
  induction L with
  | nil => intro _; exact ⟨hxy, trivial⟩
  | cons b L ih =>
    intro h
    cases L with
    | nil => exact ⟨h.1, hxy, trivial⟩
    | cons a L2 => exact ⟨h.1, ih h.2⟩

/-- Removing the bottom of the stack. -/
theorem EdgesSupport_drop_bottom {P : List Point} {x y : Point} :
    ∀ {L : List Point}, EdgesSupport P (L ++ [x, y]) → EdgesSupport P (L ++ [x]) := by
  intro L
  induction L with
  | nil => intro _; trivial
  | cons b L ih =>
    intro h
    cases L with
    | nil => exact ⟨h.1, trivial⟩
    | cons a L2 => exact ⟨h.1, ih h.2⟩

/-- A point `q` that is to the left of the top edge `b → c` of a convex chain
sorted by polar angle, and not before any vertex of the chain in polar angle,
is to the left of every edge of the chain. -/
theorem EdgesSupport_new_point (q : Point) :
    ∀ (W : List Point) (d c b : Point),
      StrictTurns (d :: c :: b :: W) →
      (d :: c :: b :: W).Pairwise (fun x y => 0 ≤ cross y x) →
      (∀ y ∈ c :: b :: W, UpperHalf y ∧ 0 ≤ cross y q) →
      0 ≤ turnArea b c q →
      EdgesSupport [q] (c :: b :: W) := by
  intro W
  induction W with
  | nil =>
    intro d c b _ _ _ hq
    refine ⟨?_, trivial⟩
    intro r hr
    rw [List.mem_singleton.1 hr]
    exact hq
  | cons a W ih =>
    intro d c b hturn hpw hmem hq
    have hq1 : ∀ r ∈ [q], 0 ≤ turnArea b c r := by
      intro r hr
      rw [List.mem_singleton.1 hr]
      exact hq
    refine ⟨hq1, ?_⟩
    have hpw2 := hpw
    simp only [List.pairwise_cons, List.mem_cons, forall_eq_or_imp] at hpw2
    obtain ⟨⟨_, hbd, _, _⟩, ⟨hbc, _, _⟩, ⟨hab, _⟩, _⟩ := hpw2
    have hbc_pos : 0 < cross b c :=
      cross_pos_of_turns (hmem b (by simp)).1 hturn.2.1 hturn.1 hab hbd hbc
    have hqa : 0 ≤ turnArea a b q :=
      left_of_lower_edge hbc_pos (le_of_lt hturn.2.1) (hmem b (by simp)).2 hab hq
    exact ih c b a (StrictTurns_tail hturn) (List.Pairwise.of_cons hpw)
      (fun y hy => hmem y (List.mem_cons_of_mem _ hy)) hqa

/-! ### The geometric invariant -/

theorem turnArea_self_right (a b : Point) : turnArea a b b = 0 := by
  unfold turnArea; ring

theorem cross_origin_left {p0 : Point} (hx : p0.x = 0) (hy : p0.y = 0) (a : Point) :
    cross p0 a = 0 := by
  unfold cross; rw [hx, hy]; ring

/-- One iteration of the loop preserves the geometric invariant. -/
theorem GeoInv_step (g : Int) (p0 p1 : Point) (hx : p0.x = 0) (hy : p0.y = 0)
    (d : List Point) (cur : Point) (s s1 : List Point)
    (hup : ∀ q ∈ d ++ [cur], UpperHalf q)
    (hsorted : (d ++ [cur]).Pairwise (fun a b => 0 ≤ cross a b))
    (hst : StackInv p0 p1 (p0 :: d) s) (hgeo : GeoInv p1 (p0 :: d) s)
    (hs : scanStep Turn (Point.sub g) cur s = Except.ok s1) :
    GeoInv p1 (p0 :: d ++ [cur]) s1 := by
  have hst1 := StackInv_step g p0 p1 (p0 :: d) cur s s1 hst hs
  obtain ⟨U, hU, hne, hsub, hturn, _⟩ := hst
  obtain ⟨hedges, hG2⟩ := hgeo
  obtain ⟨popped, t1, t2, kept, hdec, hs1, hleft, hpop⟩ := scanStep_spec g cur s s1 hs
  have hdec2 := hdec
  rw [hU] at hdec2
  obtain ⟨V, hUV, hV⟩ := kept_ends_with_bottom hdec2
  -- the new stack and its strict turns
  obtain ⟨U1, hU1, _, _, hturn1, _⟩ := hst1
  have hU1V : U1 = cur :: V := by
    have : U1 ++ [p1, p0] = (cur :: V) ++ [p1, p0] := by
      rw [← hU1, hs1, hV]; rfl
    exact List.append_cancel_right this
  rw [hU1V] at hturn1
  -- order of polar angles
  have hsubU : (p1 :: U.reverse).Sublist d := StackInv_upper_sublist hU hsub
  have hY : (p1 :: U.reverse ++ [cur]).Pairwise (fun a b => 0 ≤ cross a b) :=
    hsorted.sublist (List.Sublist.append hsubU (List.Sublist.refl _))
  have hmemU : ∀ y ∈ U ++ [p1], y ∈ d := by
    intro y hy
    apply hsubU.subset
    simp only [List.mem_append, List.mem_singleton] at hy
    simp only [List.mem_cons, List.mem_reverse]
    tauto
  have hcurd : ∀ r ∈ d, 0 ≤ cross r cur := by
    intro r hr
    exact (List.pairwise_append.1 hsorted).2.2 r hr cur (List.mem_singleton.2 rfl)
  have hcur0 : ∀ r ∈ p0 :: d, 0 ≤ cross r cur := by
    intro r hr
    rcases List.mem_cons.1 hr with h | h
    · rw [h, cross_origin_left hx hy]
    · exact hcurd r h
  have hupU : ∀ y ∈ U ++ [p1], UpperHalf y := fun y hy =>
    hup y (List.mem_append_left _ (hmemU y hy))
  have hupcur : UpperHalf cur := hup cur (by simp)
  have hYrev : (cur :: U ++ [p1]).Pairwise (fun x y => 0 ≤ cross y x) := by
    have : (cur :: U ++ [p1]) = (p1 :: U.reverse ++ [cur]).reverse := by simp
    rw [this, List.pairwise_reverse]
    exact hY
  have hp1cur : 0 < cross p1 cur := by
    cases U with
    | nil => exact absurd rfl hne
    | cons t U2 =>
      have ht := (hG2 t (by rw [hU]; rfl)).1
      have htd : t ∈ d := hmemU t (by simp)
      exact cross_pos_trans (hupU p1 (by simp)) hupcur ht (hcurd t htd)
        (hcurd p1 (hmemU p1 (by simp)))
  have hp1U : ∀ y ∈ U, 0 ≤ cross p1 y := by
    intro y hy
    have h1 := (List.pairwise_append.1 hY).1
    simp only [List.pairwise_cons, List.mem_reverse] at h1
    exact h1.1 y hy
  have hVU : ∀ y ∈ V ++ [p1], y ∈ U ++ [p1] := by
    intro y hy
    rw [hUV]
    simp only [List.mem_append, List.mem_singleton] at hy ⊢
    tauto
  have hpwV : (cur :: V ++ [p1]).Pairwise (fun x y => 0 ≤ cross y x) := by
    refine hYrev.sublist ?_
    rw [hUV]
    exact List.Sublist.cons₂ _
      (List.Sublist.append (List.sublist_append_right _ _) (List.Sublist.refl _))
  -- edges of the old stack
  have hedgeK : EdgesSupport (p0 :: d) (t1 :: t2 :: kept) := by
    rw [hdec] at hedges
    exact EdgesSupport_suffix popped hedges
  have h_e1 : ∀ r ∈ p0 :: d, 0 ≤ turnArea t2 t1 r := hedgeK.1
  have hnew : EdgesSupport [cur] (t1 :: t2 :: kept) := by
    rw [hV]
    have hbot : ∀ r ∈ [cur], 0 ≤ turnArea p0 p1 r := by
      intro r hr
      rw [List.mem_singleton.1 hr, turnArea_origin hx hy]
      exact le_of_lt hp1cur
    have hVp1 : EdgesSupport [cur] (V ++ [p1]) := by
      cases V with
      | nil => trivial
      | cons c V2 =>
        have ht1 : t1 = c := by
          simp only [List.cons_append, List.cons.injEq] at hV
          exact hV.1
        have hmem : ∀ y ∈ (c :: V2) ++ [p1], UpperHalf y ∧ 0 ≤ cross y cur := fun y hy =>
          ⟨hupU y (hVU y hy), hcurd y (hmemU y (hVU y hy))⟩
        cases V2 with
        | nil =>
          have ht2 : t2 = p1 := by
            simp only [List.cons_append, List.nil_append, List.cons.injEq] at hV
            exact hV.2.1
          rw [ht1, ht2] at hleft
          exact EdgesSupport_new_point cur [] cur c p1 hturn1 hpwV hmem (le_of_lt hleft)
        | cons b V3 =>
          have ht2 : t2 = b := by
            simp only [List.cons_append, List.cons.injEq] at hV
            exact hV.2.1
          rw [ht1, ht2] at hleft
          exact EdgesSupport_new_point cur (V3 ++ [p1]) cur c b hturn1 hpwV hmem
            (le_of_lt hleft)
    exact EdgesSupport_push_bottom hbot hVp1
  rw [hs1]
  refine ⟨⟨?_, ?_⟩, ?_⟩
  · -- the new edge t1 → cur
    intro r hr
    have hr2 : r ∈ (p0 :: d) ++ [cur] := by simpa using hr
    rcases List.mem_append.1 hr2 with hr1 | hr1
    · rcases List.eq_nil_or_concat popped with hp | ⟨pre, c, hp⟩
      · -- nothing was popped: t1 is the old top
        subst hp
        simp only [List.nil_append] at hdec hUV
        have htop := hG2 t1 (by rw [hdec]; rfl)
        cases V with
        | nil => exact absurd hUV hne
        | cons c V2 =>
          have e1 : t1 = c := by
            simp only [List.cons_append, List.cons.injEq] at hV
            exact hV.1
          subst e1
          have ht1d : t1 ∈ d := hmemU t1 (by rw [hUV]; simp)
          have hab : 0 < cross t2 t1 := by
            cases V2 with
            | nil =>
              simp only [List.cons_append, List.nil_append, List.cons.injEq] at hV
              rw [hV.2.1]
              exact htop.1
            | cons b V3 =>
              have hV1 := hV
              simp only [List.cons_append, List.cons.injEq] at hV1
              obtain ⟨_, e2, _⟩ := hV1
              subst e2
              have hpw2 := hpwV
              simp only [List.cons_append, List.pairwise_cons, List.mem_cons,
                forall_eq_or_imp] at hpw2
              obtain ⟨⟨_, hbd, _⟩, ⟨hbc, _⟩, hrest, _⟩ := hpw2
              have hupb : UpperHalf t2 := hupU t2 (hVU t2 (by simp))
              cases V3 with
              | nil =>
                exact cross_pos_of_turns hupb hturn1.2.1 hturn1.1
                  (hrest p1 (by simp)) hbd hbc
              | cons a V4 =>
                exact cross_pos_of_turns hupb hturn1.2.1 hturn1.1
                  (hrest a (by simp)) hbd hbc
          exact new_edge_no_pop hab hleft (hcurd t1 ht1d) (htop.2 r hr1) (h_e1 r hr1)
      · -- c was popped just before t1
        rw [List.concat_eq_append] at hp
        have hpopc : turnArea t1 c cur ≤ 0 := hpop pre c hp
        have hUc : U ++ [p1] = pre ++ (c :: (V ++ [p1])) := by
          rw [hUV, hp]; simp
        have h_e2 : ∀ r ∈ p0 :: d, 0 ≤ turnArea t1 c r := by
          have h1 : s = pre ++ (c :: t1 :: t2 :: kept) := by
            rw [hdec, hp]; simp
          rw [h1] at hedges
          exact (EdgesSupport_suffix pre hedges).1
        have hcU : c ∈ U := by rw [hUV, hp]; simp
        have habc : 0 < turnArea t2 t1 c := by
          cases V with
          | nil =>
            simp only [List.nil_append, List.cons.injEq] at hV
            obtain ⟨e1, e2, _⟩ := hV
            subst e1 e2
            rw [turnArea_origin hx hy]
            rw [turnArea_origin hx hy] at hleft
            rcases List.eq_nil_or_concat pre with hq | ⟨pre2, dd, hq⟩
            · have hsc : s.head? = some c := by
                rw [hdec, hp, hq]; rfl
              exact (hG2 c hsc).1
            · rw [List.concat_eq_append] at hq
              have hdd : dd ∈ U := by rw [hUV, hp, hq]; simp
              have h3 : StrictTurns [dd, c, t1] := by
                have h4 : U ++ [t1] = pre2 ++ [dd, c, t1] := by
                  rw [hUc, hq]; simp
                rw [h4] at hturn
                exact StrictTurns_suffix pre2 hturn
              exact cross_pos_of_pop h3.1 hpopc hleft (hp1U dd hdd) (hp1U c hcU)
          | cons c2 V2 =>
            rw [hUc] at hturn
            have h3 := StrictTurns_suffix pre hturn
            cases V2 with
            | nil =>
              simp only [List.cons_append, List.nil_append, List.cons.injEq] at hV
              obtain ⟨e1, e2, _⟩ := hV
              subst e1 e2
              exact h3.1
            | cons b V3 =>
              simp only [List.cons_append, List.cons.injEq] at hV
              obtain ⟨e1, e2, _⟩ := hV
              subst e1 e2
              exact h3.1
        exact new_edge_after_pop habc hpopc hleft (h_e1 r hr1) (h_e2 r hr1)
    · rw [List.mem_singleton.1 hr1]
      exact le_of_eq (turnArea_self_right _ _).symm
  · have h := EdgesSupport_points_append hedgeK hnew
    simpa using h
  · intro t ht
    simp only [List.head?_cons, Option.some.injEq] at ht
    subst ht
    refine ⟨hp1cur, ?_⟩
    intro r hr
    have hr2 : r ∈ (p0 :: d) ++ [cur] := by simpa using hr
    rcases List.mem_append.1 hr2 with hr1 | hr1
    · exact hcur0 r hr1
    · rw [List.mem_singleton.1 hr1]
      unfold cross
      have : cur.x * cur.y - cur.y * cur.x = 0 := by ring
      omega

/-- The first iteration (for `points_[3]`) establishes the geometric invariant. -/
theorem GeoInv_first (g : Int) (p0 p1 p2 p3 : Point) (hx : p0.x = 0) (hy : p0.y = 0)
    (hup : ∀ q ∈ [p1, p2, p3], UpperHalf q)
    (hsorted : [p1, p2, p3].Pairwise (fun a b => 0 ≤ cross a b))
    (s1 : List Point) (hs : scanStep Turn (Point.sub g) p3 [p2, p1, p0] = Except.ok s1) :
    GeoInv p1 [p0, p1, p2, p3] s1 := by
  obtain ⟨popped, t1, t2, kept, hdec, hs1, hleft, hpop⟩ :=
    scanStep_spec g p3 [p2, p1, p0] s1 hs
  simp only [List.pairwise_cons, List.mem_cons, forall_eq_or_imp, List.mem_singleton,
    forall_eq, List.not_mem_nil, false_implies, implies_true, List.Pairwise.nil,
    and_true] at hsorted hup
  obtain ⟨⟨c12, c13⟩, c23⟩ := hsorted
  obtain ⟨u1, u2, u3⟩ := hup
  have area : turnArea p1 p2 p3 = cross p1 p2 + cross p2 p3 - cross p1 p3 := by
    unfold turnArea cross; ring
  cases popped with
  | nil =>
    simp only [List.nil_append, List.cons.injEq] at hdec
    obtain ⟨e1, e2, e3⟩ := hdec
    subst e1 e2 e3
    have hp13 : 0 < cross p1 p3 := by
      rw [area] at hleft
      rcases lt_or_eq_of_le c12 with h | h
      · exact cross_pos_trans u1 u3 h c23 c13
      · exact cross_pos_trans_right (b := p2) u1 u3 c12 (by omega) c13
    simp only [turnArea, cross] at hleft c12 c13 c23 hp13
    rw [hs1]
    refine ⟨⟨?_, ?_, ?_, trivial⟩, ?_⟩
    · intro r hr
      simp only [List.mem_cons, List.mem_singleton, List.not_mem_nil, or_false] at hr
      rcases hr with h | h | h | h <;> rw [h] <;> simp only [turnArea, hx, hy] <;> linarith
    · intro r hr
      simp only [List.mem_cons, List.mem_singleton, List.not_mem_nil, or_false] at hr
      rcases hr with h | h | h | h <;> rw [h] <;> simp only [turnArea, hx, hy] <;> linarith
    · intro r hr
      simp only [List.mem_cons, List.mem_singleton, List.not_mem_nil, or_false] at hr
      rcases hr with h | h | h | h <;> rw [h] <;> simp only [turnArea, hx, hy] <;> linarith
    · intro t ht
      simp only [List.head?_cons, Option.some.injEq] at ht
      subst ht
      refine ⟨by simp only [cross]; exact hp13, ?_⟩
      intro r hr
      simp only [List.mem_cons, List.mem_singleton, List.not_mem_nil, or_false] at hr
      rcases hr with h | h | h | h <;> rw [h] <;> simp only [cross, hx, hy] <;> linarith
  | cons x popped2 =>
    cases popped2 with
    | nil =>
      simp only [List.cons_append, List.nil_append, List.cons.injEq] at hdec
      obtain ⟨e0, e1, e2, e3⟩ := hdec
      subst e0 e1 e2
      have hpopc : turnArea p1 p2 p3 ≤ 0 := hpop [] p2 rfl
      simp only [turnArea, cross, hx, hy] at hleft c12 c13 c23 hpopc
      rw [hs1, ← e3]
      refine ⟨⟨?_, ?_, trivial⟩, ?_⟩
      · intro r hr
        simp only [List.mem_cons, List.mem_singleton, List.not_mem_nil, or_false] at hr
        rcases hr with h | h | h | h <;> rw [h] <;> simp only [turnArea, hx, hy] <;> linarith
      · intro r hr
        simp only [List.mem_cons, List.mem_singleton, List.not_mem_nil, or_false] at hr
        rcases hr with h | h | h | h <;> rw [h] <;> simp only [turnArea, hx, hy] <;> linarith
      · intro t ht
        simp only [List.head?_cons, Option.some.injEq] at ht
        subst ht
        refine ⟨by simp only [cross]; linarith, ?_⟩
        intro r hr
        simp only [List.mem_cons, List.mem_singleton, List.not_mem_nil, or_false] at hr
        rcases hr with h | h | h | h <;> rw [h] <;> simp only [cross, hx, hy] <;> linarith
    | cons y popped3 =>
      have hlen := congrArg List.length hdec
      simp at hlen
      omega

/-- On a prepared input (pivot at the origin, the other points in the upper
half-plane by non-decreasing polar angle) on which the loop ends in exact
arithmetic, the final stack satisfies the structural and the geometric
invariant. -/
theorem RunStackExact_geo (g : Int) (p0 p1 p2 p3 : Point) (rest : List Point)
    (hx : p0.x = 0) (hy : p0.y = 0)
    (hup : ∀ q ∈ p1 :: p2 :: p3 :: rest, UpperHalf q)
    (hsorted : (p1 :: p2 :: p3 :: rest).Pairwise (fun a b => 0 ≤ cross a b))
    (s : List Point) (h : RunStackExact g (p0 :: p1 :: p2 :: p3 :: rest) = Except.ok s) :
    StackInv p0 p1 (p0 :: p1 :: p2 :: p3 :: rest) s ∧
      GeoInv p1 (p0 :: p1 :: p2 :: p3 :: rest) s := by
  simp only [RunStackExact, RunStackWith, scanLoop] at h
  cases hs1 : scanStep Turn (Point.sub g) p3 [p2, p1, p0] with
  | error e => rw [hs1] at h; simp at h
  | ok s1 =>
    rw [hs1] at h
    simp only at h
    have hinit : StackInv p0 p1 [p0, p1, p2] [p2, p1, p0] :=
      ⟨[p2], rfl, by simp, by simp, trivial, rfl⟩
    have hst1 : StackInv p0 p1 [p0, p1, p2, p3] s1 :=
      StackInv_step g p0 p1 [p0, p1, p2] p3 [p2, p1, p0] s1 hinit hs1
    have hgeo1 : GeoInv p1 [p0, p1, p2, p3] s1 := by
      refine GeoInv_first g p0 p1 p2 p3 hx hy ?_ ?_ s1 hs1
      · intro q hq
        apply hup
        simp only [List.mem_cons, List.mem_singleton, List.not_mem_nil, or_false] at hq
        simp only [List.mem_cons]
        tauto
      · have hsub : [p1, p2, p3].Sublist (p1 :: p2 :: p3 :: rest) := by
            exact List.Sublist.cons₂ _ (List.Sublist.cons₂ _ (List.Sublist.cons₂ _
            (List.nil_sublist _)))
        exact hsorted.sublist hsub
    have key := scanLoop_invariant Turn (Point.sub g)
      (fun done todo st => ∃ d, done = p0 :: d ∧ d ++ todo = p1 :: p2 :: p3 :: rest ∧
        StackInv p0 p1 done st ∧ GeoInv p1 done st)
      (fun done cur todo st st1 hi hs => by
        obtain ⟨d, hd, hfull, hsi, hgi⟩ := hi
        subst hd
        have hfull2 : (d ++ [cur]) ++ todo = p1 :: p2 :: p3 :: rest := by
          rw [← hfull]; simp
        have hup2 : ∀ q ∈ d ++ [cur], UpperHalf q := by
          intro q hq
          apply hup
          rw [← hfull2]
          exact List.mem_append_left _ hq
        have hsorted2 : (d ++ [cur]).Pairwise (fun a b => 0 ≤ cross a b) := by
          rw [← hfull2] at hsorted
          exact (List.pairwise_append.1 hsorted).1
        exact ⟨d ++ [cur], rfl, hfull2,
          StackInv_step g p0 p1 (p0 :: d) cur st st1 hsi hs,
          GeoInv_step g p0 p1 hx hy d cur st st1 hup2 hsorted2 hsi hgi hs⟩)
      rest [p0, p1, p2, p3] s1 s ⟨[p1, p2, p3], rfl, rfl, hst1, hgeo1⟩ h
    obtain ⟨d, hd, hfull, hsi, hgi⟩ := key
    simp only [List.append_nil] at hfull
    subst hfull
    exact ⟨hsi, hgi⟩

/-- C2 (counterexample): the input `(0,0)#0`, `(10000,0)#1`, `(20000,10000)#2`,
`(50000,30000)#3`, `(0,60000)#4` has its pivot first and at the origin and its
other points in the upper half-plane in strictly increasing polar angle.  The
32-bit products wrap, `Run` pops `(50000,30000)` and returns `[4, 1, 0]`: the
input point `(50000,30000)` lies strictly on the right of the hull edge from
`(10000,0)` to `(0,60000)`, outside the returned polygon. -/
theorem Run_hull_misses_point_on_overflow :
    4 ≤ widePentagon.length ∧
    widePentagon.head? = some ⟨0, 0, 0⟩ ∧
    (∀ q ∈ widePentagon.tail, UpperHalf q) ∧
    widePentagon.tail.Pairwise (fun a b => 0 < cross a b) ∧
    RunStack 0 widePentagon = Except.ok [⟨0, 60000, 4⟩, ⟨10000, 0, 1⟩, ⟨0, 0, 0⟩] ∧
    Run 0 widePentagon = Except.ok [4, 1, 0] ∧
    (⟨50000, 30000, 3⟩ : Point) ∈ widePentagon ∧
    cross (Point.sub 0 ⟨0, 60000, 4⟩ ⟨10000, 0, 1⟩)
      (Point.sub 0 ⟨50000, 30000, 3⟩ ⟨10000, 0, 1⟩) < 0 ∧
    ¬ EdgesSupport widePentagon
      ([⟨0, 60000, 4⟩, ⟨10000, 0, 1⟩, ⟨0, 0, 0⟩] ++
        ([⟨0, 60000, 4⟩, ⟨10000, 0, 1⟩, ⟨0, 0, 0⟩] : List Point).take 1) := by
  refine ⟨by decide, by decide, by decide, by decide, ?_, ?_, by decide, by decide, ?_⟩
  · unfold RunStack
    rw [Turn32_fun_eq]
    rfl
  · unfold Run
    rw [Turn32_fun_eq]
    rfl
  · intro h
    have h1 := h.1 ⟨50000, 30000, 3⟩ (by decide)
    revert h1
    decide

/-- C2 (amended): for every input with `N ≥ 4` points whose first point is the
pivot at the origin, whose other points lie in the upper half-plane in strictly
increasing polar angle and on which nothing overflows (no difference of two
input points and no cross product of two such differences leaves the range of a
32-bit `int`), `Run` returns a hull (the ids of the final stack `s`, top to
bottom) of at least three vertices, all of them input points in input order,
that encloses the input: for every two cyclically consecutive vertices `a`, `b`
in push order (`b` directly above `a` in `s`, or `a` the top and `b` the pivot)
and every input point `q`, `cross (b - a) (q - a) ≥ 0`. -/
theorem Run_hull_encloses_input (g : Int) (p0 : Point) (rest : List Point)
    (hN : 4 ≤ (p0 :: rest).length) (hx : p0.x = 0) (hy : p0.y = 0)
    (hup : ∀ q ∈ rest, UpperHalf q)
    (hS : rest.Pairwise (fun a b => 0 < cross a b))
    (hno : NoOverflow32 (p0 :: rest)) :
    ∃ s, RunStack g (p0 :: rest) = Except.ok s ∧
      Run g (p0 :: rest) = Except.ok (s.map Point.id) ∧
      3 ≤ s.length ∧ s.reverse.Sublist (p0 :: rest) ∧
      EdgesSupport (p0 :: rest) (s ++ s.take 1) := by
  rw [RunStack_eq_exact g _ hno, Run_eq_exact g _ hno]
  match rest, hN, hup, hS with
  | p1 :: p2 :: p3 :: rest2, _, hup, hS =>
    have hS1 := hS
    simp only [List.pairwise_cons] at hS1
    obtain ⟨h1, _, _⟩ := hS1
    obtain ⟨s, hs⟩ := RunStackExact_total g p0 p1 p2 (p3 :: rest2) hx hy
      (fun c hc => h1 c (List.mem_cons_of_mem _ hc))
    obtain ⟨⟨U, hU, hne, hsub, _, _⟩, hedges, hG2⟩ :=
      RunStackExact_geo g p0 p1 p2 p3 rest2 hx hy hup (hS.imp (fun h => le_of_lt h)) s hs
    refine ⟨s, hs, (RunExact_ok_iff g _ _).2 ⟨s, hs, rfl⟩, ?_, hsub, ?_⟩
    · rw [hU]
      cases U with
      | nil => exact absurd rfl hne
      | cons u U2 => simp
    cases U with
    | nil => exact absurd rfl hne
    | cons t U2 =>
      have htop := hG2 t (by rw [hU]; rfl)
      have hclose : ∀ r ∈ p0 :: p1 :: p2 :: p3 :: rest2, 0 ≤ turnArea t p0 r := by
        intro r hr
        rw [turnArea_origin_mid hx hy]
        exact htop.2 r hr
      have h2 : s ++ s.take 1 = ((t :: U2) ++ [p1]) ++ [p0, t] := by
        rw [hU]; simp
      rw [h2]
      apply EdgesSupport_push_bottom hclose
      have h3 : ((t :: U2) ++ [p1]) ++ [p0] = s := by
        rw [hU]; simp
      rw [h3]
      exact hedges

theorem Run_hull_encloses_input_witness :
    4 ≤ squarePoints.length ∧
    (∀ q ∈ squarePoints.tail, UpperHalf q) ∧
    squarePoints.tail.Pairwise (fun a b => 0 < cross a b) ∧
    NoOverflow32 squarePoints ∧
    ∃ s, RunStack 0 squarePoints = Except.ok s ∧
      Run 0 squarePoints = Except.ok (s.map Point.id) ∧
      3 ≤ s.length ∧ s.reverse.Sublist squarePoints ∧
      EdgesSupport squarePoints (s ++ s.take 1) :=
  ⟨by decide, by decide, by decide, by decide,
    Run_hull_encloses_input 0 ⟨0, 0, 0⟩ [⟨2, 0, 3⟩, ⟨2, 2, 2⟩, ⟨0, 2, 1⟩]
      (by decide) rfl rfl (by decide) (by decide) (by decide)⟩

/-! ### Minimality of the returned hull -/

/-- Every vertex of a convex chain other than its two ends is a proper corner
with all of `P` on the left of the edge that leaves it. -/
theorem chain_vertex_cases (P : List Point) :
    ∀ (L : List Point), StrictTurns L → EdgesSupport P L → ∀ q ∈ L,
      L.head? = some q ∨ L.getLast? = some q ∨
        ∃ a b, 0 < turnArea a q b ∧ ∀ r ∈ P, 0 ≤ turnArea q b r := by
  intro L
  induction L with
  | nil => intro _ _ q hq; simp at hq
  | cons b L ih =>
    intro hturn hedges q hq
    rcases List.mem_cons.1 hq with h | h
    · left; rw [h]; rfl
    · cases L with
      | nil => simp at h
      | cons m L2 =>
        cases L2 with
        | nil =>
          right; left
          simp only [List.mem_singleton] at h
          rw [h]; rfl
        | cons a L3 =>
          rcases ih (StrictTurns_tail hturn) (EdgesSupport_tail hedges) q h with h1 | h1 | h1
          · simp only [List.head?_cons, Option.some.injEq] at h1
            right; right
            rw [← h1]
            exact ⟨a, b, hturn.1, hedges.1⟩
          · right; left
            rw [List.getLast?_cons_cons]
            exact h1
          · right; right
            exact h1

theorem not_StrictlyInside_of_support {pts : List Point} {q : Point} (dx dy : Int)
    (hd : dx ≠ 0 ∨ dy ≠ 0)
    (h : ∀ r ∈ pts, dx * (r.y - q.y) - dy * (r.x - q.x) ≤ 0) : ¬ StrictlyInside pts q := by
  intro hin
  obtain ⟨r, hr, hpos⟩ := hin dx dy hd
  have := h r hr
  omega

/-- On a prepared input, no point of the final stack of the exact scan lies
strictly inside the convex hull of the input. -/
theorem RunStackExact_excludes_interior (g : Int) (p0 p1 p2 p3 : Point) (rest : List Point)
    (hx : p0.x = 0) (hy : p0.y = 0)
    (hup : ∀ q ∈ p1 :: p2 :: p3 :: rest, UpperHalf q)
    (hsorted : (p1 :: p2 :: p3 :: rest).Pairwise (fun a b => 0 ≤ cross a b))
    (s : List Point) (h : RunStackExact g (p0 :: p1 :: p2 :: p3 :: rest) = Except.ok s) :
    ∀ q ∈ s, ¬ StrictlyInside (p0 :: p1 :: p2 :: p3 :: rest) q := by
  obtain ⟨⟨U, hU, hne, hsub, hturn, _⟩, hedges, hG2⟩ :=
    RunStackExact_geo g p0 p1 p2 p3 rest hx hy hup hsorted s h
  have hup1 : UpperHalf p1 := hup p1 (by simp)
  have hp1r : ∀ r ∈ p0 :: p1 :: p2 :: p3 :: rest, 0 ≤ cross p1 r := by
    intro r hr
    rcases List.mem_cons.1 hr with h1 | h1
    · rw [h1, cross_swap, cross_origin_left hx hy]; omega
    · rcases List.mem_cons.1 h1 with h2 | h2
      · rw [h2]; unfold cross
        have : p1.x * p1.y - p1.y * p1.x = 0 := by ring
        omega
      · exact (List.pairwise_cons.1 hsorted).1 r h2
  have hUrest : ∀ y ∈ U, y ∈ p1 :: p2 :: p3 :: rest := by
    intro y hy
    apply (StackInv_upper_sublist hU hsub).subset
    simp only [List.mem_cons, List.mem_reverse]
    exact Or.inr hy
  intro q hq
  rw [hU] at hq
  have hq2 : q ∈ U ++ [p1] ∨ q = p0 := by
    simp only [List.mem_append, List.mem_cons, List.mem_singleton, List.not_mem_nil,
      or_false] at hq ⊢
    tauto
  rcases hq2 with hq3 | hq3
  · have hedges2 : EdgesSupport (p0 :: p1 :: p2 :: p3 :: rest) (U ++ [p1]) := by
      rw [hU] at hedges
      exact EdgesSupport_drop_bottom hedges
    rcases chain_vertex_cases _ (U ++ [p1]) hturn hedges2 q hq3 with h1 | h1 | ⟨a, b, hab, hsup⟩
    · -- the top of the stack: the line through the pivot and the top
      cases U with
      | nil => exact absurd rfl hne
      | cons t U2 =>
        simp only [List.cons_append, List.head?_cons, Option.some.injEq] at h1
        subst h1
        have htop := hG2 t (by rw [hU]; rfl)
        have hupt : UpperHalf t := hup t (hUrest t (by simp))
        refine not_StrictlyInside_of_support t.x t.y ?_ ?_
        · unfold UpperHalf at hupt
          rcases hupt with h5 | h5
          · right; omega
          · left; omega
        · intro r hr
          have h6 := htop.2 r hr
          unfold cross at h6
          linarith
    · -- points_[1]: the line through the pivot and points_[1]
      have hq1 : q = p1 := by
        rw [List.getLast?_concat] at h1
        exact (Option.some.inj h1).symm
      subst hq1
      refine not_StrictlyInside_of_support (-q.x) (-q.y) ?_ ?_
      · unfold UpperHalf at hup1
        rcases hup1 with h5 | h5
        · right; omega
        · left; omega
      · intro r hr
        have h6 := hp1r r hr
        unfold cross at h6
        linarith
    · -- a corner of the chain: the line through the edge that leaves it
      refine not_StrictlyInside_of_support (q.x - b.x) (q.y - b.y) ?_ ?_
      · by_contra hcon
        push_neg at hcon
        obtain ⟨e1, e2⟩ := hcon
        have e3 : b.x = q.x := by omega
        have e4 : b.y = q.y := by omega
        unfold turnArea at hab
        rw [e3, e4] at hab
        have : (q.x - a.x) * (q.y - a.y) - (q.y - a.y) * (q.x - a.x) = 0 := by ring
        omega
      · intro r hr
        have h6 := hsup r hr
        unfold turnArea at h6
        linarith
  · -- the pivot: the horizontal line through it
    subst hq3
    refine not_StrictlyInside_of_support (-1) 0 (Or.inl (by decide)) ?_
    intro r hr
    have hry : 0 ≤ r.y := by
      rcases List.mem_cons.1 hr with h1 | h1
      · rw [h1, hy]
      · have := hup r h1
        unfold UpperHalf at this
        rcases this with h5 | h5 <;> omega
    rw [hy]
    linarith
/-- C7 (counterexample): the input `(0,0)#0`, `(60000,0)#1`, `(10000,1000)#2`,
`(0,60000)#3` has its pivot first and at the origin and its other points in the
upper half-plane by non-decreasing polar angle; its ids are pairwise distinct
and `(10000,1000)#2` lies strictly inside the triangle of the other three.
The 32-bit product `-50000 * 60000` wraps, `Turn` answers `LEFT`, and `Run`
returns `[3, 2, 1, 0]`, which contains id 2. -/
theorem Run_keeps_interior_point_on_overflow :
    4 ≤ wideTriangle.length ∧
    wideTriangle.head? = some ⟨0, 0, 0⟩ ∧
    (∀ q ∈ wideTriangle.tail, UpperHalf q) ∧
    wideTriangle.tail.Pairwise (fun a b => 0 ≤ cross a b) ∧
    (wideTriangle.map Point.id).Nodup ∧
    (⟨10000, 1000, 2⟩ : Point) ∈ wideTriangle ∧
    StrictlyInside wideTriangle ⟨10000, 1000, 2⟩ ∧
    Turn32 (Point.sub32 0 ⟨10000, 1000, 2⟩ ⟨60000, 0, 1⟩)
      (Point.sub32 0 ⟨0, 60000, 3⟩ ⟨60000, 0, 1⟩) = TurnDir.LEFT ∧
    Run 0 wideTriangle = Except.ok [3, 2, 1, 0] ∧
    (2 : Int) ∈ ([3, 2, 1, 0] : List Int) := by
  refine ⟨by decide, by decide, by decide, by decide, by decide, by decide, ?_, ?_, ?_,
    by decide⟩
  · intro dx dy hd
    by_cases h1 : 0 < dx * ((0 : Int) - 1000) - dy * (0 - 10000)
    · exact ⟨⟨0, 0, 0⟩, by decide, h1⟩
    · by_cases h2 : 0 < dx * ((0 : Int) - 1000) - dy * (60000 - 10000)
      · exact ⟨⟨60000, 0, 1⟩, by decide, h2⟩
      · refine ⟨⟨0, 60000, 3⟩, by decide, ?_⟩
        show 0 < dx * ((60000 : Int) - 1000) - dy * (0 - 10000)
        omega
  · rw [Turn32_eq]; decide
  · unfold Run
    rw [Turn32_fun_eq]
    rfl

/-- C7 (amended): for every input with `N ≥ 4` points whose first point is the
pivot at the origin, whose other points lie in the upper half-plane by
non-decreasing polar angle (ties in any order) and on which nothing overflows
(no difference of two input points and no cross product of two such
differences leaves the range of a 32-bit `int`), whenever `Run` returns a hull,
the hull is the list of ids of the final stack `s`, no point of `s` lies
strictly inside the convex hull of the input, and (when the input ids are
pairwise distinct) the id of no input point strictly inside the convex hull
appears in the hull. -/
theorem Run_hull_excludes_interior (g : Int) (p0 : Point) (rest : List Point)
    (hN : 4 ≤ (p0 :: rest).length) (hx : p0.x = 0) (hy : p0.y = 0)
    (hup : ∀ q ∈ rest, UpperHalf q)
    (hS : rest.Pairwise (fun a b => 0 ≤ cross a b))
    (hno : NoOverflow32 (p0 :: rest))
    (hull : List Int) (h : Run g (p0 :: rest) = Except.ok hull) :
    ∃ s, RunStack g (p0 :: rest) = Except.ok s ∧ hull = s.map Point.id ∧
      (∀ q ∈ s, ¬ StrictlyInside (p0 :: rest) q) ∧
      (((p0 :: rest).map Point.id).Nodup →
        ∀ q ∈ p0 :: rest, StrictlyInside (p0 :: rest) q → q.id ∉ hull) := by
  rw [Run_eq_exact g _ hno] at h
  rw [RunStack_eq_exact g _ hno]
  obtain ⟨s, hs, hh⟩ := (RunExact_ok_iff g _ hull).1 h
  match rest, hN, hup, hS, h, hs with
  | p1 :: p2 :: p3 :: rest2, _, hup, hS, h, hs =>
    have hout := RunStackExact_excludes_interior g p0 p1 p2 p3 rest2 hx hy hup hS s hs
    refine ⟨s, hs, hh, hout, ?_⟩
    intro hnd q hq hin hmem
    rw [hh] at hmem
    obtain ⟨q2, hq2, hid⟩ := List.mem_map.1 hmem
    obtain ⟨_, _, _, _, _, _, _, _, hsub, _, _⟩ := RunStackExact_inv g _ s hs
    have hq2pts : q2 ∈ p0 :: p1 :: p2 :: p3 :: rest2 :=
      hsub.subset (List.mem_reverse.2 hq2)
    have heq : q2 = q := List.inj_on_of_nodup_map hnd hq2pts hq hid
    rw [heq] at hq2
    exact hout q hq2 hin

theorem Run_hull_excludes_interior_witness :
    StrictlyInside squareWithInterior ⟨1, 1, 4⟩ ∧
    (4 : Int) ∉ ([1, 2, 3, 0] : List Int) ∧
    Run 0 squareWithInteriorSwapped = Except.ok [1, 2, 3, 0] ∧
    4 ≤ squareWithInterior.length ∧
    (∀ q ∈ squareWithInterior.tail, UpperHalf q) ∧
    squareWithInterior.tail.Pairwise (fun a b => 0 ≤ cross a b) ∧
    NoOverflow32 squareWithInterior ∧
    Run 0 squareWithInterior = Except.ok [1, 2, 3, 0] ∧
    ∃ s, RunStack 0 squareWithInterior = Except.ok s ∧
      ([1, 2, 3, 0] : List Int) = s.map Point.id ∧
      (∀ q ∈ s, ¬ StrictlyInside squareWithInterior q) ∧
      ((squareWithInterior.map Point.id).Nodup →
        ∀ q ∈ squareWithInterior, StrictlyInside squareWithInterior q →
          q.id ∉ ([1, 2, 3, 0] : List Int)) :=
  ⟨by
      intro dx dy hd
      rcases lt_trichotomy dx dy with hlt | heq | hgt
      · exact ⟨⟨0, 0, 0⟩, by decide, by simp only []; omega⟩
      · rcases lt_or_ge 0 dx with hp | hp
        · exact ⟨⟨0, 2, 1⟩, by decide, by simp only []; omega⟩
        · exact ⟨⟨2, 0, 3⟩, by decide, by simp only []; omega⟩
      · exact ⟨⟨2, 2, 2⟩, by decide, by simp only []; omega⟩,
    by decide, rfl, by decide, by decide, by decide, by decide, rfl,
    Run_hull_excludes_interior 0 ⟨0, 0, 0⟩ [⟨2, 0, 3⟩, ⟨1, 1, 4⟩, ⟨2, 2, 2⟩, ⟨0, 2, 1⟩]
      (by decide) rfl rfl (by decide) (by decide) (by decide) [1, 2, 3, 0] rfl⟩

/-! ### The comparator and `NonLeftTurn` -/

theorem toFloat_nonpos (z : Int) : toFloat z ≤ 0 ↔ z ≤ 0 := by
  have h := toFloat_pos z
  constructor
  · intro h1
    by_contra h2
    have := h.2 (by omega)
    omega
  · intro h1
    by_contra h2
    have := h.1 (by omega)
    omega

/-- The comparator in terms of the cross product of the specification: it
holds exactly when `b` is not to the right of `a`. -/
theorem lt_iff_cross_nonneg (a b : Point) : Point.lt a b = true ↔ 0 ≤ cross a b := by
  unfold Point.lt XProduct cross
  rw [decide_eq_true_iff, toFloat_nonpos]
  constructor <;> intro h <;> linarith

theorem NonLeftTurn_iff (g : Int) (p0 p1 p2 : Point) :
    NonLeftTurn g p0 p1 p2 = true ↔ turnArea p0 p1 p2 < 0 := by
  unfold NonLeftTurn XProduct
  rw [decide_eq_true_iff, gt_iff_lt, toFloat_pos]
  unfold turnArea Point.sub
  simp only
  constructor <;> intro h <;> linarith

/-- C14 (the code at the failing input): `operator<` is `XProduct(a, b) <= 0`,
that is `cross(a, b) ≥ 0`: it is true of every point compared with itself and
true in both directions of every collinear pair, where `Turn` is `NONE`, not
`LEFT`. -/
theorem lt_holds_on_ties :
    (∀ a b : Point, Point.lt a b = true ↔ 0 ≤ a.x * b.y - a.y * b.x) ∧
    (∀ a : Point, Point.lt a a = true) ∧
    Point.lt ⟨1, 0, 0⟩ ⟨2, 0, 1⟩ = true ∧ Point.lt ⟨2, 0, 1⟩ ⟨1, 0, 0⟩ = true ∧
    Turn ⟨1, 0, 0⟩ ⟨2, 0, 1⟩ = TurnDir.NONE :=
  ⟨fun a b => lt_iff_cross_nonneg a b,
    fun a => (lt_iff_cross_nonneg a a).2 (by unfold cross; linarith),
    by decide, by decide, by decide⟩

/-- C17 (the code at the failing input): `NonLeftTurn` is
`XProduct(p1 - p0, p2 - p0) > 0`, true exactly for right turns; on the collinear
triple `(0,0)`, `(1,0)`, `(2,0)`, where `Turn` is `NONE` (so not `LEFT`), it
returns `false`. -/
theorem NonLeftTurn_false_on_collinear :
    (∀ g p0 p1 p2, NonLeftTurn g p0 p1 p2 = true ↔
      Turn (Point.sub g p1 p0) (Point.sub g p2 p0) = TurnDir.RIGHT) ∧
    (∀ g, NonLeftTurn g ⟨0, 0, 0⟩ ⟨1, 0, 1⟩ ⟨2, 0, 2⟩ = false) ∧
    (∀ g, Turn (Point.sub g ⟨1, 0, 1⟩ ⟨0, 0, 0⟩) (Point.sub g ⟨2, 0, 2⟩ ⟨0, 0, 0⟩)
      = TurnDir.NONE) :=
  ⟨fun g p0 p1 p2 => by rw [NonLeftTurn_iff, Turn_sub_right_iff],
    fun _ => rfl, fun _ => rfl⟩

/-- Non-strict order of polar angles is transitive in the upper half-plane. -/
theorem cross_nonneg_trans {a b c : Point} (ha : UpperHalf a) (hb : UpperHalf b)
    (hc : UpperHalf c) (hab : 0 ≤ cross a b) (hbc : 0 ≤ cross b c) : 0 ≤ cross a c := by
  by_contra hneg
  have hac : cross a c < 0 := by omega
  unfold cross at hab hbc hac
  unfold UpperHalf at ha hb hc
  have hay : 0 ≤ a.y := by rcases ha with h1 | h1 <;> omega
  have hby : 0 ≤ b.y := by rcases hb with h1 | h1 <;> omega
  have hcy : 0 ≤ c.y := by rcases hc with h1 | h1 <;> omega
  have idy : (a.x * b.y - a.y * b.x) * c.y + (b.x * c.y - b.y * c.x) * a.y
      = (a.x * c.y - a.y * c.x) * b.y := by ring
  have idx : (a.x * b.y - a.y * b.x) * c.x + (b.x * c.y - b.y * c.x) * a.x
      = (a.x * c.y - a.y * c.x) * b.x := by ring
  have t1 : 0 ≤ (a.x * b.y - a.y * b.x) * c.y := mul_nonneg hab hcy
  have t2 : 0 ≤ (b.x * c.y - b.y * c.x) * a.y := mul_nonneg hbc hay
  have t3 : (a.x * c.y - a.y * c.x) * b.y ≤ 0 :=
    mul_nonpos_of_nonpos_of_nonneg (le_of_lt hac) hby
  have t1z : (a.x * b.y - a.y * b.x) * c.y = 0 := by omega
  have t2z : (b.x * c.y - b.y * c.x) * a.y = 0 := by omega
  have t3z : (a.x * c.y - a.y * c.x) * b.y = 0 := by omega
  have hby0 : b.y = 0 := by
    rcases mul_eq_zero.1 t3z with h1 | h1
    · omega
    · exact h1
  have hbx : 0 < b.x := by rcases hb with h1 | h1 <;> omega
  have t4 : (a.x * c.y - a.y * c.x) * b.x < 0 := mul_neg_of_neg_of_pos hac hbx
  have t5 : 0 ≤ (a.x * b.y - a.y * b.x) * c.x := by
    rcases mul_eq_zero.1 t1z with h1 | h1
    · rw [h1]; simp
    · have hcx : 0 < c.x := by rcases hc with h2 | h2 <;> omega
      exact mul_nonneg hab (le_of_lt hcx)
  have t6 : 0 ≤ (b.x * c.y - b.y * c.x) * a.x := by
    rcases mul_eq_zero.1 t2z with h1 | h1
    · rw [h1]; simp
    · have hax : 0 < a.x := by rcases ha with h2 | h2 <;> omega
      exact mul_nonneg hbc (le_of_lt hax)
  omega

/-- C20: on the non-pivot centred points (`y > 0`, or `y = 0` and `x > 0`)
`operator<` is a total preorder: any two points compare at least one way, and
`a < b` with `b < c` gives `a < c`. -/
theorem lt_total_preorder (a b c : Point) (ha : UpperHalf a) (hb : UpperHalf b)
    (hc : UpperHalf c) :
    (Point.lt a b = true ∨ Point.lt b a = true) ∧
    (Point.lt a b = true → Point.lt b c = true → Point.lt a c = true) := by
  simp only [lt_iff_cross_nonneg]
  constructor
  · rw [cross_swap a b]
    omega
  · intro hab hbc
    exact cross_nonneg_trans ha hb hc hab hbc

theorem lt_total_preorder_witness :
    UpperHalf ⟨2, 0, 3⟩ ∧ UpperHalf ⟨2, 2, 2⟩ ∧ UpperHalf ⟨0, 2, 1⟩ ∧
    Point.lt ⟨2, 0, 3⟩ ⟨2, 2, 2⟩ = true ∧ Point.lt ⟨2, 2, 2⟩ ⟨0, 2, 1⟩ = true ∧
    ((Point.lt ⟨2, 0, 3⟩ ⟨2, 2, 2⟩ = true ∨ Point.lt ⟨2, 2, 2⟩ ⟨2, 0, 3⟩ = true) ∧
      (Point.lt ⟨2, 0, 3⟩ ⟨2, 2, 2⟩ = true → Point.lt ⟨2, 2, 2⟩ ⟨0, 2, 1⟩ = true →
        Point.lt ⟨2, 0, 3⟩ ⟨0, 2, 1⟩ = true)) :=
  ⟨by decide, by decide, by decide, by decide, by decide,
    lt_total_preorder ⟨2, 0, 3⟩ ⟨2, 2, 2⟩ ⟨0, 2, 1⟩ (by decide) (by decide) (by decide)⟩

/-! ### Pivot selection and centring -/

theorem lexLe_refl (p : Point) : lexLe p p := Or.inr ⟨rfl, le_refl _⟩

theorem lexLe_trans {p q r : Point} (h1 : lexLe p q) (h2 : lexLe q r) : lexLe p r := by
  unfold lexLe at *
  omega

theorem readLoop_spec :
    ∀ (lines : List (Int × Int)) (idx : Nat) (m : Point),
      (∀ q ∈ (readLoop lines idx m).1, lexLe (readLoop lines idx m).2 q) ∧
      (idx ≠ 0 → lexLe (readLoop lines idx m).2 m) ∧
      ((readLoop lines idx m).2 ∈ (readLoop lines idx m).1 ∨
        (idx ≠ 0 ∧ (readLoop lines idx m).2 = m) ∨ lines = []) := by
  intro lines
  induction lines with
  | nil =>
    intro idx m
    exact ⟨by simp [readLoop], fun _ => lexLe_refl _, Or.inr (Or.inr rfl)⟩
  | cons xy lines ih =>
    intro idx m
    obtain ⟨x, y⟩ := xy
    by_cases hc : idx = 0 ∨ (y = m.y ∧ x < m.x) ∨ y < m.y
    · obtain ⟨h1, h2, h3⟩ := ih (idx + 1) ⟨x, y, idx⟩
      have h2b := h2 (Nat.succ_ne_zero _)
      simp only [readLoop, if_pos hc]
      refine ⟨?_, ?_, ?_⟩
      · intro q hq
        rcases List.mem_cons.1 hq with h | h
        · rw [h]; exact h2b
        · exact h1 q h
      · intro hidx
        refine lexLe_trans h2b ?_
        unfold lexLe
        simp only
        omega
      · left
        rcases h3 with h | ⟨_, h⟩ | h
        · exact List.mem_cons_of_mem _ h
        · rw [h]; exact List.mem_cons_self _ _
        · subst h
          simp [readLoop]
    · obtain ⟨h1, h2, h3⟩ := ih (idx + 1) m
      have h2b := h2 (Nat.succ_ne_zero _)
      have hidx : idx ≠ 0 := fun h => hc (Or.inl h)
      simp only [readLoop, if_neg hc]
      refine ⟨?_, ?_, ?_⟩
      · intro q hq
        rcases List.mem_cons.1 hq with h | h
        · rw [h]
          refine lexLe_trans h2b ?_
          unfold lexLe
          simp only
          omega
        · exact h1 q h
      · intro _
        exact h2b
      · rcases h3 with h | ⟨_, h⟩ | h
        · left; exact List.mem_cons_of_mem _ h
        · right; left; exact ⟨hidx, h⟩
        · subst h
          right; left
          exact ⟨hidx, by simp [readLoop]⟩

/-- C11: for every non-empty sequence of parsed points, the pivot `p0_` that
`ReadFile` leaves in `curr_min` is an element of `points_` with minimum `y`
and, among the points with that `y`, minimum `x`: for every `q` of `points_`,
`p0_.y < q.y`, or `p0_.y = q.y` and `p0_.x ≤ q.x`. -/
theorem ReadFile_pivot_is_lowest_leftmost (uninit : Point) (lines : List (Int × Int))
    (hne : lines ≠ []) :
    (ReadFile uninit lines).2 ∈ (ReadFile uninit lines).1 ∧
    ∀ q ∈ (ReadFile uninit lines).1,
      (ReadFile uninit lines).2.y < q.y ∨
        ((ReadFile uninit lines).2.y = q.y ∧ (ReadFile uninit lines).2.x ≤ q.x) := by
  obtain ⟨h1, _, h3⟩ := readLoop_spec lines 0 uninit
  refine ⟨?_, h1⟩
  rcases h3 with h | ⟨h, _⟩ | h
  · exact h
  · exact absurd rfl h
  · exact absurd h hne

theorem ReadFile_pivot_is_lowest_leftmost_witness :
    sampleLines ≠ [] ∧ (ReadFile ⟨7, 7, 7⟩ sampleLines).2 = ⟨-1, -1, 2⟩ ∧
    ((ReadFile ⟨7, 7, 7⟩ sampleLines).2 ∈ (ReadFile ⟨7, 7, 7⟩ sampleLines).1 ∧
    ∀ q ∈ (ReadFile ⟨7, 7, 7⟩ sampleLines).1,
      (ReadFile ⟨7, 7, 7⟩ sampleLines).2.y < q.y ∨
        ((ReadFile ⟨7, 7, 7⟩ sampleLines).2.y = q.y ∧
          (ReadFile ⟨7, 7, 7⟩ sampleLines).2.x ≤ q.x)) :=
  ⟨by decide, by decide, ReadFile_pivot_is_lowest_leftmost ⟨7, 7, 7⟩ sampleLines (by decide)⟩

theorem centerLoop_getElem? (uninit : Nat → Int) (p0 : Point) :
    ∀ (pts : List Point) (k i : Nat),
      (centerLoop uninit p0 k pts)[i]? =
        (pts[i]?).map (fun p => Point.sub (uninit (k + i)) p p0) := by
  intro pts
  induction pts with
  | nil => intro k i; simp [centerLoop]
  | cons p ps ih =>
    intro k i
    cases i with
    | zero => simp [centerLoop]
    | succ j =>
      simp only [centerLoop, List.getElem?_cons_succ]
      rw [ih (k + 1) j]
      have : k + 1 + j = k + (j + 1) := by omega
      rw [this]

theorem centerLoop_length (uninit : Nat → Int) (p0 : Point) :
    ∀ (pts : List Point) (k : Nat), (centerLoop uninit p0 k pts).length = pts.length := by
  intro pts
  induction pts with
  | nil => intro k; rfl
  | cons p ps ih => intro k; simp [centerLoop, ih]

theorem mem_centerLoop (uninit : Nat → Int) (p0 : Point) :
    ∀ (pts : List Point) (k : Nat) (q : Point), q ∈ centerLoop uninit p0 k pts →
      ∃ p ∈ pts, q.x = p.x - p0.x ∧ q.y = p.y - p0.y := by
  intro pts
  induction pts with
  | nil => intro k q hq; simp [centerLoop] at hq
  | cons p ps ih =>
    intro k q hq
    simp only [centerLoop, List.mem_cons] at hq
    rcases hq with h | h
    · exact ⟨p, List.mem_cons_self _ _, by rw [h]; rfl, by rw [h]; rfl⟩
    · obtain ⟨p2, hp2, hx, hy⟩ := ih (k + 1) q h
      exact ⟨p2, List.mem_cons_of_mem _ hp2, hx, hy⟩

/-- C12: after `CenterP0` the vector has the same length and order, the
coordinates of `points_[i]` are the old ones minus the pivot's, and an entry
with the pivot's coordinates becomes the origin. -/
theorem CenterP0_subtracts_pivot (uninit : Nat → Int) (p0 : Point) (points_ : List Point) :
    (CenterP0 uninit p0 points_).length = points_.length ∧
    ∀ (i : Nat) (p : Point), points_[i]? = some p →
      ∃ q, (CenterP0 uninit p0 points_)[i]? = some q ∧
        q.x = p.x - p0.x ∧ q.y = p.y - p0.y ∧
        (p.x = p0.x → p.y = p0.y → q.x = 0 ∧ q.y = 0) := by
  refine ⟨centerLoop_length uninit p0 points_ 0, ?_⟩
  intro i p hp
  refine ⟨Point.sub (uninit (0 + i)) p p0, ?_, rfl, rfl, ?_⟩
  · unfold CenterP0
    rw [centerLoop_getElem?, hp]
    rfl
  · intro hx hy
    simp only [Point.sub]
    omega

theorem CenterP0_subtracts_pivot_witness :
    (CenterP0 (fun _ => 0) ⟨-1, -1, 2⟩ (ReadFile ⟨7, 7, 7⟩ sampleLines).1).length =
      (ReadFile ⟨7, 7, 7⟩ sampleLines).1.length ∧
    ∀ (i : Nat) (p : Point), (ReadFile ⟨7, 7, 7⟩ sampleLines).1[i]? = some p →
      ∃ q, (CenterP0 (fun _ => 0) ⟨-1, -1, 2⟩ (ReadFile ⟨7, 7, 7⟩ sampleLines).1)[i]? = some q ∧
        q.x = p.x - (-1) ∧ q.y = p.y - (-1) ∧
        (p.x = -1 → p.y = -1 → q.x = 0 ∧ q.y = 0) :=
  CenterP0_subtracts_pivot (fun _ => 0) ⟨-1, -1, 2⟩ (ReadFile ⟨7, 7, 7⟩ sampleLines).1

/-- C13 (the code at the failing input): `operator-` never assigns `tmp.id`, so
after `CenterP0` the id of `points_[i]` is whatever the unassigned field held
(`uninit i`), not the id before; with that value `-1` the ids `0, 1, 2, 3`
read by `ReadFile` become `-1, -1, -1, -1`. -/
theorem CenterP0_loses_ids :
    (∀ (uninit : Nat → Int) (p0 : Point) (points_ : List Point) (i : Nat) (q : Point),
      (CenterP0 uninit p0 points_)[i]? = some q → q.id = uninit i) ∧
    (ReadFile ⟨7, 7, 7⟩ sampleLines).1.map Point.id = [0, 1, 2, 3] ∧
    (CenterP0 (fun _ => -1) (ReadFile ⟨7, 7, 7⟩ sampleLines).2
      (ReadFile ⟨7, 7, 7⟩ sampleLines).1).map Point.id = [-1, -1, -1, -1] := by
  refine ⟨?_, by decide, by decide⟩
  intro uninit p0 points_ i q hq
  unfold CenterP0 at hq
  rw [centerLoop_getElem?] at hq
  cases hp : points_[i]? with
  | none => rw [hp] at hq; simp at hq
  | some p =>
    rw [hp] at hq
    simp only [Option.map_some', Option.some.injEq] at hq
    rw [← hq]
    simp [Point.sub]

/-- C15: for every non-empty sequence of parsed points, after `CenterP0` with
the pivot selected by `ReadFile` every point has `y > 0`, or `y = 0` and
`x ≥ 0`. -/
theorem CenterP0_points_in_upper_half (uninit : Nat → Int) (garbage : Point)
    (lines : List (Int × Int)) (_hne : lines ≠ []) :
    ∀ q ∈ CenterP0 uninit (ReadFile garbage lines).2 (ReadFile garbage lines).1,
      0 < q.y ∨ (q.y = 0 ∧ 0 ≤ q.x) := by
  intro q hq
  obtain ⟨p, hp, hx, hy⟩ := mem_centerLoop uninit _ _ 0 q hq
  have hle := (readLoop_spec lines 0 garbage).1 p hp
  unfold lexLe at hle
  unfold ReadFile at hx hy
  omega

theorem CenterP0_points_in_upper_half_witness :
    sampleLines ≠ [] ∧
    ∀ q ∈ CenterP0 (fun _ => 0) (ReadFile ⟨7, 7, 7⟩ sampleLines).2
        (ReadFile ⟨7, 7, 7⟩ sampleLines).1,
      0 < q.y ∨ (q.y = 0 ∧ 0 ≤ q.x) :=
  ⟨by decide,
    CenterP0_points_in_upper_half (fun _ => 0) ⟨7, 7, 7⟩ sampleLines (by decide)⟩

/-! ### 32-bit arithmetic in `XProduct` -/

/-- C16 (counterexample): for the `int` vectors `u = (50000, 0)` and
`v = (0, 50000)` the product `u.x * v.y = 2500000000` does not fit in 32 bits;
`Turn` returns `RIGHT` although the exact cross product is positive. -/
theorem Turn32_wrong_on_overflow :
    (-2147483648 ≤ (50000 : Int) ∧ (50000 : Int) < 2147483648) ∧
    Turn32 ⟨50000, 0, 0⟩ ⟨0, 50000, 1⟩ = TurnDir.RIGHT ∧
    0 < cross ⟨50000, 0, 0⟩ ⟨0, 50000, 1⟩ ∧
    Turn ⟨50000, 0, 0⟩ ⟨0, 50000, 1⟩ = TurnDir.LEFT := by
  refine ⟨by decide, ?_, by decide, (Turn_left_iff _ _).2 (by decide)⟩
  rw [Turn32_eq]
  decide

/-- C16 (amended): with 32-bit `int` arithmetic modulo `2^32`, for all vectors
`u`, `v` for which the value `v.x * u.y - u.x * v.y` that `XProduct` computes
lies in `-2^31 .. 2^31 - 1`, `Turn` classifies by the sign of the exact cross
product `u.x * v.y - u.y * v.x`. -/
theorem Turn32_exact_of_representable (u v : Point)
    (h : -2147483648 ≤ v.x * u.y - u.x * v.y ∧ v.x * u.y - u.x * v.y < 2147483648) :
    (Turn32 u v = TurnDir.LEFT ↔ 0 < u.x * v.y - u.y * v.x) ∧
    (Turn32 u v = TurnDir.NONE ↔ u.x * v.y - u.y * v.x = 0) ∧
    (Turn32 u v = TurnDir.RIGHT ↔ u.x * v.y - u.y * v.x < 0) := by
  have hT : Turn32 u v = Turn u v := by
    unfold Turn32 XProduct32 Turn XProduct
    rw [wrapInt32_sub_wrap _ _ h]
  rw [hT]
  exact ⟨Turn_left_iff u v, Turn_none_iff u v, Turn_right_iff u v⟩

theorem Turn32_exact_of_representable_witness :
    (-2147483648 ≤ (2 : Int) * 0 - 2 * 2 ∧ (2 : Int) * 0 - 2 * 2 < 2147483648) ∧
    Turn32 ⟨2, 0, 3⟩ ⟨2, 2, 2⟩ = TurnDir.LEFT ∧
    ((Turn32 ⟨2, 0, 3⟩ ⟨2, 2, 2⟩ = TurnDir.LEFT ↔ 0 < (2 : Int) * 2 - 0 * 2) ∧
    (Turn32 ⟨2, 0, 3⟩ ⟨2, 2, 2⟩ = TurnDir.NONE ↔ (2 : Int) * 2 - 0 * 2 = 0) ∧
    (Turn32 ⟨2, 0, 3⟩ ⟨2, 2, 2⟩ = TurnDir.RIGHT ↔ (2 : Int) * 2 - 0 * 2 < 0)) :=
  ⟨by decide, by decide, Turn32_exact_of_representable ⟨2, 0, 3⟩ ⟨2, 2, 2⟩ (by decide)⟩

/-- Coordinates of absolute value at most `32767` keep the value computed by
`XProduct` within 32 bits. -/
theorem representable_of_small_coordinates (u v : Point)
    (hux : -32767 ≤ u.x ∧ u.x ≤ 32767) (huy : -32767 ≤ u.y ∧ u.y ≤ 32767)
    (hvx : -32767 ≤ v.x ∧ v.x ≤ 32767) (hvy : -32767 ≤ v.y ∧ v.y ≤ 32767) :
    -2147483648 ≤ v.x * u.y - u.x * v.y ∧ v.x * u.y - u.x * v.y < 2147483648 := by
  obtain ⟨a1, a2⟩ := hux
  obtain ⟨b1, b2⟩ := huy
  obtain ⟨c1, c2⟩ := hvx
  obtain ⟨d1, d2⟩ := hvy
  constructor
  · nlinarith [mul_nonneg (sub_nonneg.2 c2) (sub_nonneg.2 b1),
      mul_nonneg (sub_nonneg.2 c1) (sub_nonneg.2 b2),
      mul_nonneg (sub_nonneg.2 a2) (sub_nonneg.2 d2),
      mul_nonneg (sub_nonneg.2 a1) (sub_nonneg.2 d1)]
  · nlinarith [mul_nonneg (sub_nonneg.2 c2) (sub_nonneg.2 b2),
      mul_nonneg (sub_nonneg.2 c1) (sub_nonneg.2 b1),
      mul_nonneg (sub_nonneg.2 a2) (sub_nonneg.2 d1),
      mul_nonneg (sub_nonneg.2 a1) (sub_nonneg.2 d2)]

/-! ### Sorting with `operator<` -/

/-- C18 (the code at the failing input): the origin compares `operator<` in
both directions with every point, so order under `operator<` does not fix its
place.  For the unit square, centred on its pivot `(0,0)`, the arrangement
`(1,0)`, `(0,0)`, `(1,1)`, `(0,1)` is a rearrangement of the centred points in
which each element compares `operator<` to its successor (and to every later
element), and its first element is not the origin. -/
theorem lt_chain_with_pivot_second :
    (∀ o a : Point, o.x = 0 → o.y = 0 → Point.lt o a = true ∧ Point.lt a o = true) ∧
    List.Perm pivotSecond
      (CenterP0 (fun _ => 0) (ReadFile ⟨7, 7, 7⟩ unitSquareLines).2
        (ReadFile ⟨7, 7, 7⟩ unitSquareLines).1) ∧
    isLtChain pivotSecond = true ∧
    pivotSecond.Pairwise (fun a b => Point.lt a b = true) ∧
    pivotSecond.head? = some ⟨1, 0, 0⟩ := by
  refine ⟨?_, by decide, by decide, by decide, rfl⟩
  intro o a hx hy
  rw [lt_iff_cross_nonneg, lt_iff_cross_nonneg]
  unfold cross
  rw [hx, hy]
  constructor <;> simp

/-! ### The pop loop under strictly increasing angles -/

/-- C19 (counterexample): the square of side `50000` has `N ≥ 3` points, its
first point at the origin and its other points in the upper half-plane in
strictly increasing polar angle.  In the iteration for `points_[3]` both 32-bit
tests of `Turn` wrap and answer `RIGHT`: `points_[1]` and `points_[0]` are
popped and `s.top()` is evaluated on the empty stack; `Run` returns no hull. -/
theorem Run_pops_bottom_on_overflow :
    3 ≤ overflowSquare.length ∧
    overflowSquare.head? = some ⟨0, 0, 0⟩ ∧
    (∀ q ∈ overflowSquare.tail, UpperHalf q) ∧
    overflowSquare.tail.Pairwise (fun a b => 0 < cross a b) ∧
    Turn32 (Point.sub32 0 ⟨50000, 50000, 2⟩ ⟨50000, 0, 1⟩)
      (Point.sub32 0 ⟨0, 50000, 3⟩ ⟨50000, 0, 1⟩) = TurnDir.RIGHT ∧
    Turn32 (Point.sub32 0 ⟨50000, 0, 1⟩ ⟨0, 0, 0⟩)
      (Point.sub32 0 ⟨0, 50000, 3⟩ ⟨0, 0, 0⟩) = TurnDir.RIGHT ∧
    scanStep Turn32 (Point.sub32 0) ⟨0, 50000, 3⟩
      [⟨50000, 50000, 2⟩, ⟨50000, 0, 1⟩, ⟨0, 0, 0⟩] =
      Except.error UndefinedBehaviour.topOfEmptyStack ∧
    (∀ hull, Run 0 overflowSquare ≠ Except.ok hull) := by
  refine ⟨by decide, by decide, by decide, by decide, ?_, ?_, ?_, ?_⟩
  · rw [Turn32_eq]; decide
  · rw [Turn32_eq]; decide
  · rw [Turn32_fun_eq]
    rfl
  · intro hull h
    unfold Run at h
    rw [Turn32_fun_eq] at h
    exact Except.noConfusion h

/-- C19 (amended): for every input with `N ≥ 3` points whose first point is at
the origin, whose other points lie in the upper half-plane in strictly
increasing polar angle and on which nothing overflows (no difference of two
input points and no cross product of two such differences leaves the range of a
32-bit `int`), the pop loop never underflows: `Run` returns a hull; after any
number `k` of iterations the stack still ends with `points_[1]`, `points_[0]`
(they are never discarded); and every iteration succeeds, its inner loop
stopping with `points_[1]`, `points_[0]` still at the bottom. -/
theorem Run_never_underflows_strict (g : Int) (p0 : Point) (rest : List Point)
    (hN : 3 ≤ (p0 :: rest).length) (hx : p0.x = 0) (hy : p0.y = 0)
    (_hup : ∀ q ∈ rest, UpperHalf q)
    (hS : rest.Pairwise (fun a b => 0 < cross a b))
    (hno : NoOverflow32 (p0 :: rest)) :
    ∃ p1 p2 rest2, rest = p1 :: p2 :: rest2 ∧
      (∃ hull, Run g (p0 :: rest) = Except.ok hull) ∧
      (∀ k, ∃ U, U ≠ [] ∧
        scanLoop Turn32 (Point.sub32 g) (rest2.take k) [p2, p1, p0] =
          Except.ok (U ++ [p1, p0])) ∧
      (∀ k cur, rest2[k]? = some cur → ∃ U V,
        scanLoop Turn32 (Point.sub32 g) (rest2.take k) [p2, p1, p0] =
          Except.ok (U ++ [p1, p0]) ∧
        scanStep Turn32 (Point.sub32 g) cur (U ++ [p1, p0]) =
          Except.ok (cur :: V ++ [p1, p0])) := by
  match rest, hN, hS, hno with
  | p1 :: p2 :: rest2, _, hS, hno =>
    have hS1 := hS
    simp only [List.pairwise_cons] at hS1
    obtain ⟨h1, _, _⟩ := hS1
    have hpos : ∀ c ∈ rest2, 0 < cross p1 c := fun c hc => h1 c (List.mem_cons_of_mem _ hc)
    have hloop : ∀ k, scanLoop Turn32 (Point.sub32 g) (rest2.take k) [p2, p1, p0] =
        scanLoop Turn (Point.sub g) (rest2.take k) [p2, p1, p0] := by
      intro k
      apply scanLoop_eq_exact g (p0 :: p1 :: p2 :: rest2) hno
      · intro x hx
        have := List.mem_of_mem_take hx
        simp only [List.mem_cons]
        tauto
      · intro x hx
        simp only [List.mem_cons, List.mem_singleton, List.not_mem_nil, or_false] at hx
        simp only [List.mem_cons]
        tauto
    have hprefix : ∀ k, ∃ U, U ≠ [] ∧
        StackInv p0 p1 (p0 :: p1 :: p2 :: rest2.take k) (U ++ [p1, p0]) ∧
        scanLoop Turn (Point.sub g) (rest2.take k) [p2, p1, p0] =
          Except.ok (U ++ [p1, p0]) := by
      intro k
      obtain ⟨s, hs⟩ := RunStackExact_total g p0 p1 p2 (rest2.take k) hx hy
        (fun c hc => hpos c (List.mem_of_mem_take hc))
      obtain ⟨q0, q1, q2, r2, hq, hinv⟩ := RunStackExact_inv g _ s hs
      simp only [List.cons.injEq] at hq
      obtain ⟨e0, e1, _, _⟩ := hq
      subst e0 e1
      have hinv2 := hinv
      obtain ⟨U, hU, hne, _⟩ := hinv
      subst hU
      exact ⟨U, hne, hinv2, hs⟩
    refine ⟨p1, p2, rest2, rfl, ?_, ?_, ?_⟩
    · obtain ⟨s, hs⟩ := RunStackExact_total g p0 p1 p2 rest2 hx hy hpos
      rw [Run_eq_exact g _ hno]
      exact ⟨s.map Point.id, (RunExact_ok_iff g _ _).2 ⟨s, hs, rfl⟩⟩
    · intro k
      obtain ⟨U, hne, _, hrun⟩ := hprefix k
      exact ⟨U, hne, by rw [hloop k]; exact hrun⟩
    · intro k cur hcur
      obtain ⟨U, _, hinv, hrun⟩ := hprefix k
      have hleft : 0 < turnArea p0 p1 cur := by
        rw [turnArea_origin hx hy]
        exact hpos cur (List.getElem?_mem hcur)
      obtain ⟨s1, hs1⟩ := scanStep_progress g cur (U ++ [p1, p0]) U p1 p0 [] rfl hleft
      obtain ⟨U1, hU1, hne1, _⟩ := StackInv_step g p0 p1 _ cur _ s1 hinv hs1
      obtain ⟨popped, t1, t2, kept, _, hshape, _, _⟩ := scanStep_spec g cur _ s1 hs1
      have hstack : ∀ x ∈ U ++ [p1, p0], x ∈ p0 :: p1 :: p2 :: rest2 := by
        obtain ⟨_, _, _, hsub, _, _⟩ := hinv
        intro x hx
        have hx2 := hsub.subset (List.mem_reverse.2 hx)
        simp only [List.mem_cons] at hx2
        simp only [List.mem_cons]
        rcases hx2 with h | h | h | h
        · exact Or.inl h
        · exact Or.inr (Or.inl h)
        · exact Or.inr (Or.inr (Or.inl h))
        · exact Or.inr (Or.inr (Or.inr (List.mem_of_mem_take h)))
      have hcurS : cur ∈ p0 :: p1 :: p2 :: rest2 := by
        have := List.getElem?_mem hcur
        simp only [List.mem_cons]
        tauto
      cases U1 with
      | nil => exact absurd rfl hne1
      | cons u V =>
        have hu : u = cur := by
          rw [hshape] at hU1
          simp only [List.cons_append, List.cons.injEq] at hU1
          exact hU1.1.symm
        subst hu
        refine ⟨U, V, by rw [hloop k]; exact hrun, ?_⟩
        rw [scanStep_eq_exact g (p0 :: p1 :: p2 :: rest2) hno _ hcurS _ hstack, hs1, hU1]

theorem Run_never_underflows_strict_witness :
    3 ≤ squarePoints.length ∧
    (∀ q ∈ squarePoints.tail, UpperHalf q) ∧
    squarePoints.tail.Pairwise (fun a b => 0 < cross a b) ∧
    NoOverflow32 squarePoints ∧
    ∃ p1 p2 rest2, squarePoints.tail = p1 :: p2 :: rest2 ∧
      (∃ hull, Run 0 squarePoints = Except.ok hull) ∧
      (∀ k, ∃ U, U ≠ [] ∧
        scanLoop Turn32 (Point.sub32 0) (rest2.take k) [p2, p1, ⟨0, 0, 0⟩] =
          Except.ok (U ++ [p1, ⟨0, 0, 0⟩])) ∧
      (∀ k cur, rest2[k]? = some cur → ∃ U V,
        scanLoop Turn32 (Point.sub32 0) (rest2.take k) [p2, p1, ⟨0, 0, 0⟩] =
          Except.ok (U ++ [p1, ⟨0, 0, 0⟩]) ∧
        scanStep Turn32 (Point.sub32 0) cur (U ++ [p1, ⟨0, 0, 0⟩]) =
          Except.ok (cur :: V ++ [p1, ⟨0, 0, 0⟩])) :=
  ⟨by decide, by decide, by decide, by decide,
    Run_never_underflows_strict 0 ⟨0, 0, 0⟩ [⟨2, 0, 3⟩, ⟨2, 2, 2⟩, ⟨0, 2, 1⟩]
      (by decide) rfl rfl (by decide) (by decide) (by decide)⟩

end gpu_graham_scan
